import Mathlib

set_option maxHeartbeats 1000000

namespace PIE

/-! Shallow embedding of the pytorch-ie core document model
(`src/pytorch_ie/core/document.py`): the `Annotation` value/serialization
contract, the `Document` layer graph with `_enumerate_dependencies`,
`asdict`/`fromdict`, `__getitem__`, together with the task-module
`encode`/`unbatch_output` protocol (`pytorch_ie/taskmodules/*`).

Modelling conventions used throughout:
* Python `dict` with integer keys is an association list where `set`
  replaces the value in place when the key exists (keeping its position)
  and appends otherwise, exactly mirroring CPython insertion-order
  semantics.
* Python `hash` of a frozen dataclass is a pure function of its compare
  fields with `hash=False` fields excluded; it is modelled by the
  concrete function `AnnData.hashId` below, which like Python factors
  through the hashes of referenced sub-annotations. No injectivity is
  assumed anywhere; theorems that need collision-freeness state it as an
  explicit hypothesis.
* Exceptions (`ValueError`, `KeyError`, `AssertionError`) are modelled
  with `Except String`.
-/

instance instDecEqExcept {ε α : Type} [DecidableEq ε] [DecidableEq α] :
    DecidableEq (Except ε α) := fun x y =>
  match x, y with
  | .ok a, .ok b =>
    if h : a = b then isTrue (by rw [h]) else isFalse (by intro hh; cases hh; exact h rfl)
  | .error a, .error b =>
    if h : a = b then isTrue (by rw [h]) else isFalse (by intro hh; cases hh; exact h rfl)
  | .ok _, .error _ => isFalse (by intro hh; cases hh)
  | .error _, .ok _ => isFalse (by intro hh; cases hh)

/-- Python `dict` with `Nat` keys: an insertion-ordered association list. -/
abbrev PyDict (α : Type) : Type := List (Nat × α)

/-- Lookup, `d[k]` / `d.get(k)`. -/
def pdGet? {α : Type} (d : PyDict α) (k : Nat) : Option α :=
  d.lookup k

/-- Assignment `d[k] = v`: replace in place if the key exists (CPython keeps
the original insertion position), append otherwise. -/
def pdSet {α : Type} (d : PyDict α) (k : Nat) (v : α) : PyDict α :=
  if (d.lookup k).isSome then
    d.map (fun e => if e.1 = k then (k, v) else e)
  else
    d ++ [(k, v)]

/-- Dict merge, Python spelling is a double-splat of both dicts: entries of
`p` override entries of `g`. -/
def pdUnion {α : Type} (g p : PyDict α) : PyDict α :=
  p.foldl (fun acc e => pdSet acc e.1 e.2) g

/-- The values view `d.values()`, in insertion order. -/
def pdValues {α : Type} (d : PyDict α) : List α :=
  d.map Prod.snd

/-- Annotation payloads. `span`/`labeledSpan` model `Span`/`LabeledSpan`,
`rel` models `BinaryRelation` (whose `head`/`tail` hold other annotation
objects, not offsets), `lab` models `Label` with its score.
The concrete classes live in `pytorch_ie/annotations.py`, which is not in
the source snapshot; their payloads follow the spec (kind-specific payload:
start/end for a span, head/tail/label for a relation, label/score for a
label) and the analogous classes in `tests/data/test_new_document_and_datasets.py`.
Scores are modelled as rationals. -/
inductive AnnData : Type where
  | span (start stop : Nat)
  | labeledSpan (start stop : Nat) (label : String)
  | rel (head tail : AnnData) (label : String)
  | lab (label : String) (score : ℚ)
deriving DecidableEq, Repr

/-- Injective-per-character numeric code for a string, used inside the hash
model. -/
def strCode (s : String) : Nat :=
  s.data.foldl (fun acc c => acc * 1114112 + c.toNat + 1) 0

/-- Model of Python `hash` on annotation values: a pure function of the
payload fields (the `_target` back-reference carries `hash=False` and is
excluded).  Like Python tuple hashing, the hash of a relation factors
through the hashes of its referenced annotations. -/
def AnnData.hashId : AnnData → Nat
  | .span s e => Nat.pair 0 (Nat.pair s e)
  | .labeledSpan s e l => Nat.pair 1 (Nat.pair (Nat.pair s e) (strCode l))
  | .rel h t l => Nat.pair 2 (Nat.pair (Nat.pair h.hashId t.hashId) (strCode l))
  | .lab l sc => Nat.pair 3 (Nat.pair (strCode l) (Nat.pair sc.num.natAbs sc.den))

/-- The annotations directly referenced by a payload (`head`/`tail` of a
`BinaryRelation`). -/
def AnnData.children : AnnData → List AnnData
  | .rel h t _ => [h, t]
  | _ => []

/-- Serialized annotation payload: reference fields are replaced by the
referenced annotation id, mirroring `BinaryRelation.asdict`. -/
inductive SerData : Type where
  | span (start stop : Nat)
  | labeledSpan (start stop : Nat) (label : String)
  | rel (headId tailId : Nat) (label : String)
  | lab (label : String) (score : ℚ)
deriving DecidableEq, Repr

/-- One serialized annotation entry: its field mapping `data` plus the
computed content-hash entry (dict key `_id`), as produced by
`Annotation.asdict` (which also deletes `_target`). -/
structure SerAnn : Type where
  data : SerData
  sid : Nat
deriving DecidableEq, Repr

/-- Serialization of one annotation payload, with reference fields replaced
by ids. Modelled from the spec: `BinaryRelation.asdict` (in the absent
`pytorch_ie/annotations.py`) replaces `head`/`tail` by the referenced
annotation hash, as the spec and the test-file analogue prescribe. -/
def AnnData.serData : AnnData → SerData
  | .span s e => .span s e
  | .labeledSpan s e l => .labeledSpan s e l
  | .rel h t l => .rel h.hashId t.hashId l
  | .lab l sc => .lab l sc

/-- `Annotation.asdict`: field mapping plus `_id := hash(self)`. -/
def AnnData.serialize (a : AnnData) : SerAnn :=
  ⟨a.serData, a.hashId⟩

/-- `Annotation.fromdict(dct, store)`: reconstruct one annotation,
substituting reference ids by already-reconstructed annotations looked up
in the accumulator `store` (whose values are `(field_name, annotation)`
pairs). A missing id raises `KeyError`. Modelled from the spec for the
relation case: `BinaryRelation.fromdict` (absent `pytorch_ie/annotations.py`)
replaces `head`/`tail` ids by `store[id]`. -/
def resolveAnn (store : PyDict (String × AnnData)) : SerData → Except String AnnData
  | .span s e => .ok (.span s e)
  | .labeledSpan s e l => .ok (.labeledSpan s e l)
  | .lab l sc => .ok (.lab l sc)
  | .rel h t l =>
    match pdGet? store h, pdGet? store t with
    | some hv, some tv => .ok (.rel hv.2 tv.2 l)
    | _, _ => .error "KeyError"

/-- Declaration of one annotation-layer field: its field name and the
`target` recorded in the field metadata by `annotation_field(target=...)`. -/
structure LayerSpec : Type where
  name : String
  target : Option String
deriving DecidableEq, Repr

/-- A declared document type: its annotation-layer fields in declaration
order. Plain fields (`text`, `id`, `metadata`) are fixed, as in
`TextDocument`. -/
structure DocSpec : Type where
  layers : List LayerSpec
deriving DecidableEq, Repr

/-- Runtime contents of one `AnnotationList`: the gold list `annotations`
(field `anns`) and the `predictions` list (field `preds`). -/
structure Layer : Type where
  anns : List AnnData
  preds : List AnnData
deriving DecidableEq, Repr

/-- A `Document` instance: its class (`spec`), the plain fields, and one
layer per declared annotation field, positionally aligned with
`spec.layers`. Equality of this structure models Python dataclass
equality of two documents of the same type (plain fields plus each
`AnnotationList` with its gold and prediction lists). -/
structure Doc : Type where
  spec : DocSpec
  text : String
  docid : Option String
  meta : List (String × String)
  layers : List Layer
deriving DecidableEq, Repr

/-- The declared annotation-field names, in declaration order
(`_annotation_fields` as a list). -/
def DocSpec.names (spec : DocSpec) : List String :=
  spec.layers.map LayerSpec.name

/-- All names that appear as some layer target (the local `targeted` set
of `__post_init__`). -/
def DocSpec.targeted (spec : DocSpec) : List String :=
  spec.layers.filterMap LayerSpec.target

/-- The children of the artificial root: annotation fields that are not the
target of any layer. Python computes this as a set difference; the model
fixes declaration order (the order is irrelevant downstream). -/
def DocSpec.rootChildren (spec : DocSpec) : List String :=
  spec.names.filter (fun n => decide (n ∉ spec.targeted))

/-- The names of layers that declare a target (the keys of
`_annotation_graph` before the artificial root is added). -/
def DocSpec.graphKeys (spec : DocSpec) : List String :=
  spec.layers.filterMap (fun L => L.target.map (fun _ => L.name))

/-- The `_annotation_graph`: one edge list `[target]` per layer with a
target, plus the artificial root pointing at the untargeted layers. -/
def DocSpec.graph (spec : DocSpec) : List (String × List String) :=
  (spec.layers.filterMap (fun L => L.target.map (fun t => (L.name, [t]))))
    ++ [("_artificial_root", spec.rootChildren)]

/-- `Document(...)` construction including `__post_init__`: creates the
empty layers and the graph; raises only if a declared layer named
`_artificial_root` already appears among the graph keys. -/
def mkDoc (spec : DocSpec) (text : String) (docid : Option String)
    (meta : List (String × String)) : Except String Doc :=
  if "_artificial_root" ∈ spec.graphKeys then
    .error "the annotation graph already contains a node _artificial_root, this is not allowed"
  else
    .ok ⟨spec, text, docid, meta, spec.layers.map (fun _ => ⟨[], []⟩)⟩

/-- Size measure for the recursion of `enumDeps`: the graph keys not yet on
the current path. -/
def pathFilter (graph : List (String × List String)) (currentPath : List String) : Nat :=
  ((graph.map Prod.fst).filter (fun k => decide (k ∉ currentPath))).length

theorem filter_cons_path_length_lt {l path : List String} {n : String}
    (hn : n ∈ l) (hp : n ∉ path) :
    (l.filter (fun k => decide (k ∉ n :: path))).length <
      (l.filter (fun k => decide (k ∉ path))).length := by
  induction l with
  | nil => cases hn
  | cons a l ih =>
    by_cases han : a = n
    · subst han
      have h1 : (decide (a ∉ a :: path)) = false := by simp
      have h2 : (decide (a ∉ path)) = true := by simpa using hp
      have hsub : (l.filter (fun k => decide (k ∉ a :: path))).Sublist
          (l.filter (fun k => decide (k ∉ path))) := by
        apply List.monotone_filter_right
        intro x hx
        simp only [decide_eq_true_eq, List.mem_cons, not_or] at hx ⊢
        exact hx.2
      have hle := hsub.length_le
      simp only [List.filter_cons, h1, h2, Bool.false_eq_true, if_false, if_true,
        List.length_cons]
      omega
    · have hn2 : n ∈ l := by
        rcases List.mem_cons.mp hn with h | h
        · exact absurd h.symm han
        · exact h
      by_cases hap : a ∈ path
      · have h1 : (decide (a ∉ n :: path)) = false := by simp [hap]
        have h2 : (decide (a ∉ path)) = false := by simp [hap]
        simp only [List.filter_cons, h1, h2, Bool.false_eq_true, if_false]
        exact ih hn2
      · have h1 : (decide (a ∉ n :: path)) = true := by simp [hap, han]
        have h2 : (decide (a ∉ path)) = true := by simp [hap]
        simp only [List.filter_cons, h1, h2, if_true, List.length_cons]
        exact Nat.succ_lt_succ (ih hn2)

theorem mem_keys_of_lookup {κ α : Type} [BEq κ] [LawfulBEq κ] {graph : List (κ × α)}
    {node : κ} {v : α} (h : graph.lookup node = some v) : node ∈ graph.map Prod.fst := by
  induction graph with
  | nil => simp [List.lookup] at h
  | cons e l ih =>
    rcases e with ⟨k, w⟩
    by_cases hk : k = node
    · subst hk
      simp
    · have hl : l.lookup node = some v := by
        have hkb : (node == k) = false := beq_eq_false_iff_ne.mpr (fun hh => hk hh.symm)
        simpa [List.lookup, hkb] using h
      simpa using Or.inr (ih hl)

theorem pathFilter_lt {graph : List (String × List String)} {currentPath : List String}
    {node : String} {deps : List String} (hg : graph.lookup node = some deps)
    (hpath : node ∉ currentPath) :
    pathFilter graph (node :: currentPath) < pathFilter graph currentPath :=
  filter_cons_path_length_lt (mem_keys_of_lookup hg) hpath

/-- `_enumerate_dependencies`: depth-first enumeration of the dependency
graph starting from `nodes`, accumulating into `resolved` (dependencies
first), raising `ValueError` when a node reappears on the current path. -/
def enumDeps (graph : List (String × List String)) (resolved : List String)
    (nodes : List String) (currentPath : List String) : Except String (List String) :=
  match nodes with
  | [] => .ok resolved
  | node :: rest =>
    if hpath : node ∈ currentPath then
      .error ("circular dependency detected at node: " ++ node)
    else if node ∈ resolved then
      enumDeps graph resolved rest currentPath
    else
      match hg : graph.lookup node with
      | none => enumDeps graph (resolved ++ [node]) rest currentPath
      | some deps =>
        match enumDeps graph resolved deps (node :: currentPath) with
        | .error e => .error e
        | .ok r => enumDeps graph (r ++ [node]) rest currentPath
termination_by (pathFilter graph currentPath, nodes.length)
decreasing_by
  · exact Prod.Lex.right _ (Nat.lt_succ_self rest.length)
  · exact Prod.Lex.right _ (Nat.lt_succ_self rest.length)
  · exact Prod.Lex.left _ _ (pathFilter_lt hg hpath)
  · exact Prod.Lex.right _ (Nat.lt_succ_self rest.length)

/-- The dependency order computed inside `Document.fromdict`: enumeration
from the artificial root children over the annotation graph. -/
def depOrder (spec : DocSpec) : Except String (List String) :=
  enumDeps spec.graph [] spec.rootChildren []

/-- Serialized form of one `AnnotationList`: the dict with keys
`annotations` (field `anns`) and `predictions` (field `preds`). -/
structure SerLayer : Type where
  anns : List SerAnn
  preds : List SerAnn
deriving DecidableEq, Repr

/-- Serialized `Document`: plain fields verbatim (the metadata dict is
stored as `value or None`, so an empty dict serializes as `None`), plus
one serialized layer per annotation field. -/
structure SerDoc : Type where
  text : String
  docid : Option String
  meta : Option (List (String × String))
  layers : List (String × SerLayer)
deriving DecidableEq, Repr

/-- Layer part of `Document.asdict`. -/
def Layer.serialize (L : Layer) : SerLayer :=
  ⟨L.anns.map AnnData.serialize, L.preds.map AnnData.serialize⟩

/-- `Document.asdict`. -/
def Doc.asdict (d : Doc) : SerDoc :=
  ⟨d.text, d.docid,
   if d.meta = [] then none else some d.meta,
   (d.spec.names.zip d.layers).map (fun e => (e.1, e.2.serialize))⟩

/-- The gold loop of `Document.fromdict` for one layer: resolve each
serialized annotation against the gold accumulator only, then store it
under its serialized id. -/
def buildGolds (name : String) (golds : PyDict (String × AnnData)) :
    List SerAnn → Except String (PyDict (String × AnnData))
  | [] => .ok golds
  | sa :: rest =>
    match resolveAnn golds sa.data with
    | .error e => .error e
    | .ok a => buildGolds name (pdSet golds sa.sid (name, a)) rest

/-- The prediction loop of `Document.fromdict` for one layer: resolve each
serialized prediction against the union of the gold and prediction
accumulators, then store it in the prediction accumulator. -/
def buildPreds (name : String) (golds preds : PyDict (String × AnnData)) :
    List SerAnn → Except String (PyDict (String × AnnData))
  | [] => .ok preds
  | sa :: rest =>
    match resolveAnn (pdUnion golds preds) sa.data with
    | .error e => .error e
    | .ok a => buildPreds name golds (pdSet preds sa.sid (name, a)) rest

/-- The field walk of `Document.fromdict`: process the names in dependency
order, skipping names that are not annotation fields (for example the
`text` terminal node) and layers missing from the serialized mapping. -/
def processLayers (spec : DocSpec) (dct : SerDoc) :
    List String → PyDict (String × AnnData) → PyDict (String × AnnData) →
    Except String (PyDict (String × AnnData) × PyDict (String × AnnData))
  | [], golds, preds => .ok (golds, preds)
  | n :: rest, golds, preds =>
    if n ∈ spec.names then
      match dct.layers.lookup n with
      | none => processLayers spec dct rest golds preds
      | some sl =>
        match buildGolds n golds sl.anns with
        | .error e => .error e
        | .ok golds2 =>
          match buildPreds n golds2 preds sl.preds with
          | .error e => .error e
          | .ok preds2 => processLayers spec dct rest golds2 preds2
    else
      processLayers spec dct rest golds preds

/-- `getattr(doc, name).append(a)` respectively
`getattr(doc, name).predictions.append(a)`. -/
def Doc.appendTo (d : Doc) (name : String) (a : AnnData) (isPred : Bool) : Doc :=
  ⟨d.spec, d.text, d.docid, d.meta,
   (d.spec.names.zip d.layers).map (fun e =>
      if e.1 = name then
        (if isPred then ⟨e.2.anns, e.2.preds ++ [a]⟩ else ⟨e.2.anns ++ [a], e.2.preds⟩)
      else e.2)⟩

/-- The final append loops of `Document.fromdict`: every accumulator value
`(field_name, annotation)` is appended to its layer, gold entries first. -/
def applyStores (d0 : Doc) (golds preds : PyDict (String × AnnData)) : Doc :=
  let d1 := (pdValues golds).foldl (fun dd e => dd.appendTo e.1 e.2 false) d0
  (pdValues preds).foldl (fun dd e => dd.appendTo e.1 e.2 true) d1

/-- `Document.fromdict`: construct the document from non-annotation fields,
enumerate the layer dependency order, walk the layers building the two
accumulators, then append every reconstructed annotation. -/
def Doc.fromdict (spec : DocSpec) (dct : SerDoc) : Except String Doc :=
  match mkDoc spec dct.text dct.docid (match dct.meta with | none => [] | some m => m) with
  | .error e => .error e
  | .ok d0 =>
    match enumDeps spec.graph [] spec.rootChildren [] with
    | .error e => .error e
    | .ok order =>
      match processLayers spec dct order [] [] with
      | .error e => .error e
      | .ok sp => .ok (applyStores d0 sp.1 sp.2)

/-- `Document.__getitem__`: a declared annotation-layer name returns the
layer, any other key raises `KeyError`. -/
def Doc.getItem (d : Doc) (key : String) : Except String Layer :=
  if key ∈ d.spec.names then
    match (d.spec.names.zip d.layers).lookup key with
    | some L => .ok L
    | none => .error "AttributeError"
  else
    .error ("Document has no attribute " ++ key ++ ".")

/-! Invariants of the reconstruction accumulators. -/

/-- The annotation values stored in an accumulator. -/
def storeVals (S : PyDict (String × AnnData)) : List AnnData :=
  S.map (fun e => e.2.2)

/-- Every accumulator entry is keyed by the hash of its stored annotation.
This holds for the accumulators built from an `asdict` image because the
serialized `_id` is the content hash and because the hash of a relation
factors through the hashes of its resolved references. -/
def StoreWF (S : PyDict (String × AnnData)) : Prop :=
  ∀ e ∈ S, e.2.2.hashId = e.1

instance storeWFDec (S : PyDict (String × AnnData)) : Decidable (StoreWF S) :=
  List.decidableBAll _ S

/-- Hash-consistency of a collection of annotation values: equal hashes only
for equal values. Python guarantees only that `hash` is a function of the
payload; this records the absence of collisions among the listed values. -/
def hashConsistentList (l : List AnnData) : Prop :=
  ∀ v ∈ l, ∀ w ∈ l, v.hashId = w.hashId → v = w

instance hashConsistentListDec (l : List AnnData) : Decidable (hashConsistentList l) :=
  List.decidableBAll _ l

theorem hashConsistentList_sub {l1 l2 : List AnnData}
    (hsub : ∀ x ∈ l1, x ∈ l2) (h : hashConsistentList l2) : hashConsistentList l1 :=
  fun v hv w hw hh => h v (hsub v hv) w (hsub w hw) hh

theorem lookup_none_of_not_mem_keys {κ α : Type} [BEq κ] [LawfulBEq κ]
    {D : List (κ × α)} {k : κ} (h : k ∉ D.map Prod.fst) : D.lookup k = none := by
  induction D with
  | nil => rfl
  | cons e l ih =>
    rcases e with ⟨k0, v0⟩
    have hk : k ≠ k0 := fun hh =>
      h (List.mem_map.mpr ⟨(k0, v0), List.mem_cons_self _ _, hh.symm⟩)
    have hkb : (k == k0) = false := beq_eq_false_iff_ne.mpr hk
    have h2 : k ∉ l.map Prod.fst := fun hh => by
      rcases List.mem_map.mp hh with ⟨e0, he0, heq⟩
      exact h (List.mem_map.mpr ⟨e0, List.mem_cons_of_mem _ he0, heq⟩)
    simp only [List.lookup, hkb]
    exact ih h2

theorem pdSet_fresh {α : Type} {D : PyDict α} {k : Nat} {v : α}
    (h : k ∉ D.map Prod.fst) : pdSet D k v = D ++ [(k, v)] := by
  simp [pdSet, lookup_none_of_not_mem_keys h]

theorem pdSet_entry_cases {α : Type} {D : PyDict α} {k : Nat} {v : α} {e : Nat × α}
    (h : e ∈ pdSet D k v) : e ∈ D ∨ e = (k, v) := by
  by_cases hk : (D.lookup k).isSome
  · simp only [pdSet, if_pos hk] at h
    rcases List.mem_map.mp h with ⟨e0, he0, heq⟩
    by_cases hek : e0.1 = k
    · right
      rw [if_pos hek] at heq
      exact heq.symm
    · left
      rw [if_neg hek] at heq
      rwa [heq] at he0
  · simp only [pdSet, if_neg hk, List.mem_append, List.mem_singleton] at h
    exact h

theorem pdSet_keys {α : Type} {D : PyDict α} {k : Nat} {v : α} {k0 : Nat}
    (h : k0 ∈ D.map Prod.fst ∨ k0 = k) : k0 ∈ (pdSet D k v).map Prod.fst := by
  by_cases hk : (D.lookup k).isSome
  · simp only [pdSet, if_pos hk, List.map_map]
    rcases h with h | h
    · rcases List.mem_map.mp h with ⟨e0, he0, heq⟩
      refine List.mem_map.mpr ⟨e0, he0, ?_⟩
      by_cases hek : e0.1 = k
      · simp only [Function.comp_apply, if_pos hek]
        rw [← hek]
        exact heq
      · simp only [Function.comp_apply, if_neg hek]
        exact heq
    · subst h
      rcases Option.isSome_iff_exists.mp hk with ⟨w, hw⟩
      rcases List.mem_map.mp (mem_keys_of_lookup hw) with ⟨e0, he0, heq⟩
      refine List.mem_map.mpr ⟨e0, he0, ?_⟩
      simp only [Function.comp_apply, if_pos heq]
  · simp only [pdSet, if_neg hk, List.map_append]
    rcases h with h | h
    · exact List.mem_append.mpr (Or.inl h)
    · exact List.mem_append.mpr (Or.inr (by simp [h]))

theorem pdUnion_entry_cases {α : Type} {G P : PyDict α} {e : Nat × α}
    (h : e ∈ pdUnion G P) : e ∈ G ∨ e ∈ P := by
  suffices hgen : ∀ (P0 acc : PyDict α), e ∈ P0.foldl (fun acc x => pdSet acc x.1 x.2) acc →
      e ∈ acc ∨ e ∈ P0 by
    rcases hgen P G h with h1 | h1
    · exact Or.inl h1
    · exact Or.inr h1
  intro P0
  induction P0 with
  | nil => exact fun acc hh => Or.inl hh
  | cons x P1 ih =>
    intro acc hh
    simp only [List.foldl_cons] at hh
    rcases ih (pdSet acc x.1 x.2) hh with h1 | h1
    · rcases pdSet_entry_cases h1 with h2 | h2
      · exact Or.inl h2
      · right
        simp [h2]
    · right
      simp [h1]

theorem pdUnion_keys {α : Type} {G P : PyDict α} {k : Nat}
    (h : k ∈ G.map Prod.fst ∨ k ∈ P.map Prod.fst) : k ∈ (pdUnion G P).map Prod.fst := by
  suffices hgen : ∀ (P0 acc : PyDict α), (k ∈ acc.map Prod.fst ∨ k ∈ P0.map Prod.fst) →
      k ∈ (P0.foldl (fun acc x => pdSet acc x.1 x.2) acc).map Prod.fst by
    exact hgen P G h
  intro P0
  induction P0 with
  | nil =>
    intro acc hh
    rcases hh with h1 | h1
    · exact h1
    · simp at h1
  | cons x P1 ih =>
    intro acc hh
    simp only [List.foldl_cons]
    apply ih
    rcases hh with h1 | h1
    · exact Or.inl (pdSet_keys (Or.inl h1))
    · rcases List.mem_map.mp h1 with ⟨e0, he0, heq⟩
      rcases List.mem_cons.mp he0 with h2 | h2
      · exact Or.inl (pdSet_keys (Or.inr (by rw [← heq, h2])))
      · exact Or.inr (List.mem_map.mpr ⟨e0, h2, heq⟩)

theorem storeWF_union {G P : PyDict (String × AnnData)}
    (hG : StoreWF G) (hP : StoreWF P) : StoreWF (pdUnion G P) := by
  intro e he
  rcases pdUnion_entry_cases he with h | h
  · exact hG e h
  · exact hP e h

theorem storeVals_union_sub {G P : PyDict (String × AnnData)} {v : AnnData}
    (h : v ∈ storeVals (pdUnion G P)) : v ∈ storeVals G ++ storeVals P := by
  rcases List.mem_map.mp h with ⟨e, he, heq⟩
  rcases pdUnion_entry_cases he with h1 | h1
  · exact List.mem_append.mpr (Or.inl (List.mem_map.mpr ⟨e, h1, heq⟩))
  · exact List.mem_append.mpr (Or.inr (List.mem_map.mpr ⟨e, h1, heq⟩))

theorem key_mem_of_val_mem {S : PyDict (String × AnnData)} {c : AnnData}
    (hwf : StoreWF S) (hc : c ∈ storeVals S) : c.hashId ∈ S.map Prod.fst := by
  rcases List.mem_map.mp hc with ⟨e, he, heq⟩
  have := hwf e he
  rw [← heq, this]
  exact List.mem_map.mpr ⟨e, he, rfl⟩

/-- Key lookup lemma: in an accumulator whose entries are keyed by the hash
of their value, looking up the hash of `c` returns `c` itself, provided the
present key and the absence of collisions among the stored values
(extended with `c`). -/
theorem pdGet?_wf_exact {S : PyDict (String × AnnData)} {c : AnnData}
    (hwf : StoreWF S)
    (hcoll : ∀ w ∈ storeVals S, w.hashId = c.hashId → w = c)
    (hkey : c.hashId ∈ S.map Prod.fst) :
    ∃ nm, pdGet? S c.hashId = some (nm, c) := by
  induction S with
  | nil => simp at hkey
  | cons e l ih =>
    rcases e with ⟨k, nm, w⟩
    have hvals : storeVals ((k, nm, w) :: l) = w :: storeVals l := rfl
    by_cases hk : c.hashId = k
    · have hwk : w.hashId = k := hwf ⟨k, nm, w⟩ (List.mem_cons_self _ _)
      have hwc : w = c := by
        apply hcoll w (by rw [hvals]; exact List.mem_cons_self _ _)
        rw [hwk, hk]
      refine ⟨nm, ?_⟩
      have hkb : (c.hashId == k) = true := beq_iff_eq.mpr hk
      simp only [pdGet?, List.lookup, hkb, hwc]
    · have hkb : (c.hashId == k) = false := beq_eq_false_iff_ne.mpr hk
      have hkey2 : c.hashId ∈ l.map Prod.fst := by
        rcases List.mem_map.mp hkey with ⟨e0, he0, heq⟩
        rcases List.mem_cons.mp he0 with h1 | h1
        · exact absurd (by rw [← heq, h1]) hk
        · exact List.mem_map.mpr ⟨e0, h1, heq⟩
      have hwf2 : StoreWF l := fun e he => hwf e (List.mem_cons_of_mem _ he)
      have hcoll2 : ∀ w0 ∈ storeVals l, w0.hashId = c.hashId → w0 = c := by
        intro w0 hw0 hh
        exact hcoll w0 (by rw [hvals]; exact List.mem_cons_of_mem _ hw0) hh
      rcases ih hwf2 hcoll2 hkey2 with ⟨nm0, hnm0⟩
      refine ⟨nm0, ?_⟩
      simpa only [pdGet?, List.lookup, hkb] using hnm0

/-- Resolution of a serialized annotation against a hash-keyed accumulator
returns exactly the original annotation, when the keys of all its
references are present and hashes are collision-free between stored values
and references. -/
theorem resolveAnn_serData_exact {S : PyDict (String × AnnData)} {a : AnnData}
    (hwf : StoreWF S)
    (hcoll : ∀ v ∈ storeVals S, ∀ c ∈ a.children, v.hashId = c.hashId → v = c)
    (hkeys : ∀ c ∈ a.children, c.hashId ∈ S.map Prod.fst) :
    resolveAnn S a.serData = .ok a := by
  cases a with
  | span s e => rfl
  | labeledSpan s e l => rfl
  | lab l sc => rfl
  | rel h t l =>
    have hhm : h ∈ AnnData.children (.rel h t l) := by simp [AnnData.children]
    have htm : t ∈ AnnData.children (.rel h t l) := by simp [AnnData.children]
    have hH : ∃ nm, pdGet? S h.hashId = some (nm, h) := by
      apply pdGet?_wf_exact hwf ?_ (hkeys h hhm)
      intro w hw hh
      exact hcoll w hw h hhm hh
    have hT : ∃ nm, pdGet? S t.hashId = some (nm, t) := by
      apply pdGet?_wf_exact hwf ?_ (hkeys t htm)
      intro w hw hh
      exact hcoll w hw t htm hh
    rcases hH with ⟨nm1, h1⟩
    rcases hT with ⟨nm2, h2⟩
    simp [AnnData.serData, resolveAnn, h1, h2]

/-- The references of a sequence of annotations are valid with respect to a
growing context: each annotation may only reference values available before
it (initially `vals`, extended by each processed annotation in turn). -/
def childrenOk (vals : List AnnData) : List AnnData → Prop
  | [] => True
  | a :: rest => (∀ c ∈ a.children, c ∈ vals) ∧ childrenOk (vals ++ [a]) rest

instance childrenOkDec : (vals l : List AnnData) → Decidable (childrenOk vals l)
  | _, [] => isTrue trivial
  | vals, a :: rest =>
    @instDecidableAnd _ _ (List.decidableBAll _ a.children) (childrenOkDec (vals ++ [a]) rest)

theorem storeVals_append (S T : PyDict (String × AnnData)) :
    storeVals (S ++ T) = storeVals S ++ storeVals T :=
  List.map_append _ _ _

/-- One gold layer loop: starting from a hash-keyed accumulator `S`, the
serialized image of `anns` is resolved back to `anns` and appended
entry-wise, provided fresh ids, collision-freeness and valid references. -/
theorem buildGolds_serialized (name : String) (anns : List AnnData)
    (S : PyDict (String × AnnData))
    (hwf : StoreWF S)
    (hfresh : (S.map Prod.fst ++ anns.map AnnData.hashId).Nodup)
    (hcoll : hashConsistentList (storeVals S ++ anns))
    (hch : childrenOk (storeVals S) anns) :
    buildGolds name S (anns.map AnnData.serialize)
      = .ok (S ++ anns.map (fun a => (a.hashId, (name, a)))) := by
  induction anns generalizing S with
  | nil => simp [buildGolds]
  | cons a rest ih =>
    have hch1 : ∀ c ∈ a.children, c ∈ storeVals S := hch.1
    have hres : resolveAnn S a.serData = .ok a := by
      apply resolveAnn_serData_exact hwf ?_ ?_
      · intro v hv c hc hh
        exact hcoll v (List.mem_append.mpr (Or.inl hv)) c
          (List.mem_append.mpr (Or.inl (hch1 c hc))) hh
      · intro c hc
        exact key_mem_of_val_mem hwf (hch1 c hc)
    have hkeyfresh : a.hashId ∉ S.map Prod.fst := by
      rcases List.nodup_append.mp hfresh with ⟨_, _, hdisj⟩
      intro hmem
      exact hdisj hmem (by simp)
    have hset : pdSet S a.hashId (name, a) = S ++ [(a.hashId, (name, a))] :=
      pdSet_fresh hkeyfresh
    have hwf2 : StoreWF (S ++ [(a.hashId, (name, a))]) := by
      intro e he
      rcases List.mem_append.mp he with h1 | h1
      · exact hwf e h1
      · rw [List.mem_singleton.mp h1]
    have hkeys2 : (S ++ [(a.hashId, (name, a))]).map Prod.fst
        = S.map Prod.fst ++ [a.hashId] := by
      rw [List.map_append]
      rfl
    have hfresh2 : ((S ++ [(a.hashId, (name, a))]).map Prod.fst
        ++ rest.map AnnData.hashId).Nodup := by
      rw [hkeys2, List.append_assoc]
      simpa using hfresh
    have hvals2 : storeVals (S ++ [(a.hashId, (name, a))]) = storeVals S ++ [a] := by
      rw [storeVals_append]
      rfl
    have hcoll2 : hashConsistentList (storeVals (S ++ [(a.hashId, (name, a))]) ++ rest) := by
      rw [hvals2, List.append_assoc]
      simpa using hcoll
    have hch2 : childrenOk (storeVals (S ++ [(a.hashId, (name, a))])) rest := by
      rw [hvals2]
      exact hch.2
    have ih2 := ih (S ++ [(a.hashId, (name, a))]) hwf2 hfresh2 hcoll2 hch2
    calc buildGolds name S ((a :: rest).map AnnData.serialize)
        = buildGolds name (pdSet S a.hashId (name, a)) (rest.map AnnData.serialize) := by
          simp only [List.map_cons, buildGolds, AnnData.serialize, hres]
      _ = .ok (S ++ (a :: rest).map (fun a => (a.hashId, (name, a)))) := by
          rw [hset, ih2, List.map_cons, List.append_assoc]
          rfl

/-- One prediction layer loop: resolution happens against the union of the
gold and prediction accumulators. -/
theorem buildPreds_serialized (name : String) (anns : List AnnData)
    (G P : PyDict (String × AnnData))
    (hwfG : StoreWF G) (hwfP : StoreWF P)
    (hfresh : (P.map Prod.fst ++ anns.map AnnData.hashId).Nodup)
    (hcoll : hashConsistentList ((storeVals G ++ storeVals P) ++ anns))
    (hch : childrenOk (storeVals G ++ storeVals P) anns) :
    buildPreds name G P (anns.map AnnData.serialize)
      = .ok (P ++ anns.map (fun a => (a.hashId, (name, a)))) := by
  induction anns generalizing P with
  | nil => simp [buildPreds]
  | cons a rest ih =>
    have hch1 : ∀ c ∈ a.children, c ∈ storeVals G ++ storeVals P := hch.1
    have hwfU : StoreWF (pdUnion G P) := storeWF_union hwfG hwfP
    have hres : resolveAnn (pdUnion G P) a.serData = .ok a := by
      apply resolveAnn_serData_exact hwfU ?_ ?_
      · intro v hv c hc hh
        exact hcoll v (List.mem_append.mpr (Or.inl (storeVals_union_sub hv))) c
          (List.mem_append.mpr (Or.inl (hch1 c hc))) hh
      · intro c hc
        apply pdUnion_keys
        rcases List.mem_append.mp (hch1 c hc) with h1 | h1
        · exact Or.inl (key_mem_of_val_mem hwfG h1)
        · exact Or.inr (key_mem_of_val_mem hwfP h1)
    have hkeyfresh : a.hashId ∉ P.map Prod.fst := by
      rcases List.nodup_append.mp hfresh with ⟨_, _, hdisj⟩
      intro hmem
      exact hdisj hmem (by simp)
    have hset : pdSet P a.hashId (name, a) = P ++ [(a.hashId, (name, a))] :=
      pdSet_fresh hkeyfresh
    have hwfP2 : StoreWF (P ++ [(a.hashId, (name, a))]) := by
      intro e he
      rcases List.mem_append.mp he with h1 | h1
      · exact hwfP e h1
      · rw [List.mem_singleton.mp h1]
    have hkeys2 : (P ++ [(a.hashId, (name, a))]).map Prod.fst
        = P.map Prod.fst ++ [a.hashId] := by
      rw [List.map_append]
      rfl
    have hfresh2 : ((P ++ [(a.hashId, (name, a))]).map Prod.fst
        ++ rest.map AnnData.hashId).Nodup := by
      rw [hkeys2, List.append_assoc]
      simpa using hfresh
    have hvals2 : storeVals G ++ storeVals (P ++ [(a.hashId, (name, a))])
        = (storeVals G ++ storeVals P) ++ [a] := by
      rw [storeVals_append, ← List.append_assoc]
      rfl
    have hcoll2 : hashConsistentList
        ((storeVals G ++ storeVals (P ++ [(a.hashId, (name, a))])) ++ rest) := by
      rw [hvals2, List.append_assoc]
      simpa using hcoll
    have hch2 : childrenOk (storeVals G ++ storeVals (P ++ [(a.hashId, (name, a))])) rest := by
      rw [hvals2]
      exact hch.2
    have ih2 := ih (P ++ [(a.hashId, (name, a))]) hwfP2 hfresh2 hcoll2 hch2
    calc buildPreds name G P ((a :: rest).map AnnData.serialize)
        = buildPreds name G (pdSet P a.hashId (name, a)) (rest.map AnnData.serialize) := by
          simp only [List.map_cons, buildPreds, AnnData.serialize, hres]
      _ = .ok (P ++ (a :: rest).map (fun a => (a.hashId, (name, a)))) := by
          rw [hset, ih2, List.map_cons, List.append_assoc]
          rfl

/-! The layer walk of `fromdict` on the image of `asdict`. -/

/-- The layer stored under field name `n` (`getattr(doc, n)`). -/
def Doc.layerNamed (d : Doc) (n : String) : Option Layer :=
  (d.spec.names.zip d.layers).lookup n

/-- Gold annotations of the layer named `n`, empty when there is no such
layer. -/
def layerAnnsOf (d : Doc) (n : String) : List AnnData :=
  match d.layerNamed n with
  | some L => L.anns
  | none => []

/-- Predictions of the layer named `n`. -/
def layerPredsOf (d : Doc) (n : String) : List AnnData :=
  match d.layerNamed n with
  | some L => L.preds
  | none => []

/-- All `(field_name, annotation)` gold pairs contributed by the given
field names, in processing order. -/
def goldStream (d : Doc) (names : List String) : List (String × AnnData) :=
  names.flatMap (fun n => (layerAnnsOf d n).map (fun a => (n, a)))

/-- All `(field_name, annotation)` prediction pairs contributed by the
given field names, in processing order. -/
def predStream (d : Doc) (names : List String) : List (String × AnnData) :=
  names.flatMap (fun n => (layerPredsOf d n).map (fun a => (n, a)))

/-- An accumulator entry as built by `fromdict` for an annotation from an
`asdict` image: keyed by the content hash. -/
def mapEntry (e : String × AnnData) : Nat × (String × AnnData) :=
  (e.2.hashId, e)

/-- Validity of all cross-references of a document, phrased along the
processing order: walking `names`, the gold annotations of each layer may
reference only previously processed gold values, while its predictions may
reference all gold values through the current layer plus previously
processed predictions. This is the faithful rendering of the documented
invariant that an annotation is appended only after the annotations it
references are attached. -/
def refsOk (d : Doc) : List String → List AnnData → List AnnData → Prop
  | [], _, _ => True
  | n :: rest, gvals, pvals =>
    childrenOk gvals (layerAnnsOf d n) ∧
    childrenOk ((gvals ++ layerAnnsOf d n) ++ pvals) (layerPredsOf d n) ∧
    refsOk d rest (gvals ++ layerAnnsOf d n) (pvals ++ layerPredsOf d n)

instance refsOkDec (d : Doc) : (names : List String) → (g p : List AnnData) →
    Decidable (refsOk d names g p)
  | [], _, _ => isTrue trivial
  | _ :: rest, _, _ =>
    @instDecidableAnd _ _ (childrenOkDec _ _)
      (@instDecidableAnd _ _ (childrenOkDec _ _) (refsOkDec d rest _ _))

theorem lookup_map_snd {κ α β : Type} [BEq κ] (f : α → β) (l : List (κ × α)) (k : κ) :
    (l.map (fun e => (e.1, f e.2))).lookup k = (l.lookup k).map f := by
  induction l with
  | nil => rfl
  | cons e t ih =>
    rcases e with ⟨k0, v0⟩
    cases hb : (k == k0) with
    | true => simp [List.lookup, hb]
    | false => simpa [List.lookup, hb] using ih

theorem lookup_isSome_of_mem_keys {κ α : Type} [BEq κ] [LawfulBEq κ]
    {D : List (κ × α)} {k : κ} (h : k ∈ D.map Prod.fst) : ∃ v, D.lookup k = some v := by
  induction D with
  | nil => simp at h
  | cons e l ih =>
    rcases e with ⟨k0, v0⟩
    by_cases hk : k = k0
    · exact ⟨v0, by simp [List.lookup, beq_iff_eq.mpr hk]⟩
    · have h2 : k ∈ l.map Prod.fst := by
        rcases List.mem_map.mp h with ⟨e0, he0, heq⟩
        rcases List.mem_cons.mp he0 with h1 | h1
        · exact absurd (by rw [← heq, h1]) hk
        · exact List.mem_map.mpr ⟨e0, h1, heq⟩
      rcases ih h2 with ⟨v, hv⟩
      exact ⟨v, by simp [List.lookup, beq_eq_false_iff_ne.mpr hk, hv]⟩

/-- The serialized mapping of `asdict` holds exactly the serialized layers. -/
theorem asdict_layers_lookup (d : Doc) (n : String) :
    (d.asdict).layers.lookup n = (d.layerNamed n).map Layer.serialize := by
  have : (d.asdict).layers = (d.spec.names.zip d.layers).map (fun e => (e.1, e.2.serialize)) := rfl
  rw [this, Doc.layerNamed]
  exact lookup_map_snd _ _ _

theorem layerNamed_isSome_of_mem {d : Doc}
    (hlen : d.layers.length = d.spec.layers.length)
    {n : String} (hn : n ∈ d.spec.names) : ∃ L, d.layerNamed n = some L := by
  apply lookup_isSome_of_mem_keys
  rw [List.map_fst_zip]
  · exact hn
  · rw [hlen]
    exact Nat.le_of_eq (List.length_map _ _)

theorem layerNamed_none_of_not_mem {d : Doc} {n : String}
    (hn : n ∉ d.spec.names) : d.layerNamed n = none := by
  apply lookup_none_of_not_mem_keys
  intro hmem
  rcases List.mem_map.mp hmem with ⟨e0, he0, heq⟩
  exact hn (heq ▸ (List.of_mem_zip he0).1)

theorem storeVals_mapEntry (gs : List (String × AnnData)) :
    storeVals (gs.map mapEntry) = gs.map Prod.snd := by
  rw [storeVals, List.map_map]
  rfl

theorem keys_mapEntry (gs : List (String × AnnData)) :
    (gs.map mapEntry).map Prod.fst = gs.map (fun e => e.2.hashId) := by
  rw [List.map_map]
  rfl

theorem storeWF_mapEntry (gs : List (String × AnnData)) :
    StoreWF (gs.map mapEntry) := by
  intro e he
  rcases List.mem_map.mp he with ⟨x, _, heq⟩
  rw [← heq]
  rfl

theorem goldStream_cons (d : Doc) (n : String) (rest : List String) :
    goldStream d (n :: rest)
      = (layerAnnsOf d n).map (fun a => (n, a)) ++ goldStream d rest := by
  simp [goldStream]

theorem predStream_cons (d : Doc) (n : String) (rest : List String) :
    predStream d (n :: rest)
      = (layerPredsOf d n).map (fun a => (n, a)) ++ predStream d rest := by
  simp [predStream]

theorem snd_tagged (n : String) (l : List AnnData) :
    (l.map (fun a => (n, a))).map Prod.snd = l := by
  rw [List.map_map]
  simp

theorem hash_tagged (n : String) (l : List AnnData) :
    (l.map (fun a => (n, a))).map (fun e => e.2.hashId) = l.map AnnData.hashId := by
  rw [List.map_map]
  rfl

theorem mapEntry_tagged (n : String) (l : List AnnData) :
    (l.map (fun a => (n, a))).map mapEntry = l.map (fun a => (a.hashId, (n, a))) := by
  rw [List.map_map]
  rfl

/-- Walking the layers of an `asdict` image extends the accumulators
entry-wise by exactly the gold and prediction streams of the processed
names, and reconstructs every annotation to its original value. -/
theorem processLayers_asdict_eval (d : Doc)
    (hlen : d.layers.length = d.spec.layers.length) :
    ∀ (names : List String) (gs ps : List (String × AnnData)),
    ((gs ++ goldStream d names).map (fun e => e.2.hashId)).Nodup →
    ((ps ++ predStream d names).map (fun e => e.2.hashId)).Nodup →
    hashConsistentList ((gs ++ goldStream d names).map Prod.snd
      ++ (ps ++ predStream d names).map Prod.snd) →
    refsOk d names (gs.map Prod.snd) (ps.map Prod.snd) →
    processLayers d.spec d.asdict names (gs.map mapEntry) (ps.map mapEntry)
      = .ok ((gs ++ goldStream d names).map mapEntry,
             (ps ++ predStream d names).map mapEntry)
  | [], gs, ps, _, _, _, _ => by
    simp [processLayers, goldStream, predStream]
  | n :: rest, gs, ps, hfreshG, hfreshP, hcoll, hrefs => by
    by_cases hn : n ∈ d.spec.names
    · obtain ⟨L, hL⟩ := layerNamed_isSome_of_mem hlen hn
      have hanns : layerAnnsOf d n = L.anns := by rw [layerAnnsOf, hL]
      have hpreds : layerPredsOf d n = L.preds := by rw [layerPredsOf, hL]
      have hlk : (d.asdict).layers.lookup n = some L.serialize := by
        rw [asdict_layers_lookup, hL]
        rfl
      have hGS : goldStream d (n :: rest)
          = L.anns.map (fun a => (n, a)) ++ goldStream d rest := by
        rw [goldStream_cons, hanns]
      have hPS : predStream d (n :: rest)
          = L.preds.map (fun a => (n, a)) ++ predStream d rest := by
        rw [predStream_cons, hpreds]
      have hIDeqG : (gs ++ goldStream d (n :: rest)).map (fun e => e.2.hashId)
          = gs.map (fun e => e.2.hashId)
            ++ (L.anns.map AnnData.hashId
                ++ (goldStream d rest).map (fun e => e.2.hashId)) := by
        rw [hGS, List.map_append, List.map_append, hash_tagged]
      have hIDeqP : (ps ++ predStream d (n :: rest)).map (fun e => e.2.hashId)
          = ps.map (fun e => e.2.hashId)
            ++ (L.preds.map AnnData.hashId
                ++ (predStream d rest).map (fun e => e.2.hashId)) := by
        rw [hPS, List.map_append, List.map_append, hash_tagged]
      have hSNDeqG : (gs ++ goldStream d (n :: rest)).map Prod.snd
          = gs.map Prod.snd ++ (L.anns ++ (goldStream d rest).map Prod.snd) := by
        rw [hGS, List.map_append, List.map_append, snd_tagged]
      have hSNDeqP : (ps ++ predStream d (n :: rest)).map Prod.snd
          = ps.map Prod.snd ++ (L.preds ++ (predStream d rest).map Prod.snd) := by
        rw [hPS, List.map_append, List.map_append, snd_tagged]
      have hsubG : ∀ x ∈ gs.map Prod.snd ++ L.anns,
          x ∈ (gs ++ goldStream d (n :: rest)).map Prod.snd
            ++ (ps ++ predStream d (n :: rest)).map Prod.snd := by
        intro x hx
        apply List.mem_append.mpr
        left
        rw [hSNDeqG]
        rcases List.mem_append.mp hx with h1 | h1
        · exact List.mem_append.mpr (Or.inl h1)
        · exact List.mem_append.mpr (Or.inr (List.mem_append.mpr (Or.inl h1)))
      have hsubP : ∀ x ∈ (gs.map Prod.snd ++ L.anns) ++ (ps.map Prod.snd ++ L.preds),
          x ∈ (gs ++ goldStream d (n :: rest)).map Prod.snd
            ++ (ps ++ predStream d (n :: rest)).map Prod.snd := by
        intro x hx
        rcases List.mem_append.mp hx with h1 | h1
        · exact hsubG x h1
        · apply List.mem_append.mpr
          right
          rw [hSNDeqP]
          rcases List.mem_append.mp h1 with h2 | h2
          · exact List.mem_append.mpr (Or.inl h2)
          · exact List.mem_append.mpr (Or.inr (List.mem_append.mpr (Or.inl h2)))
      have hbg : buildGolds n (gs.map mapEntry) (L.anns.map AnnData.serialize)
          = .ok ((gs ++ L.anns.map (fun a => (n, a))).map mapEntry) := by
        rw [List.map_append, mapEntry_tagged]
        apply buildGolds_serialized
        · exact storeWF_mapEntry gs
        · rw [keys_mapEntry]
          apply List.Nodup.sublist ?_ (hIDeqG ▸ hfreshG)
          exact (List.sublist_append_left _ _).append_left _
        · apply hashConsistentList_sub ?_ hcoll
          intro x hx
          apply hsubG
          rwa [storeVals_mapEntry] at hx
        · rw [storeVals_mapEntry]
          exact hanns ▸ hrefs.1
      have hG2vals : storeVals ((gs ++ L.anns.map (fun a => (n, a))).map mapEntry)
          = gs.map Prod.snd ++ L.anns := by
        rw [storeVals_mapEntry, List.map_append, snd_tagged]
      have hbp : buildPreds n ((gs ++ L.anns.map (fun a => (n, a))).map mapEntry)
            (ps.map mapEntry) (L.preds.map AnnData.serialize)
          = .ok ((ps ++ L.preds.map (fun a => (n, a))).map mapEntry) := by
        have erhs : (ps ++ L.preds.map (fun a => (n, a))).map mapEntry
            = ps.map mapEntry ++ L.preds.map (fun a => (a.hashId, (n, a))) := by
          rw [List.map_append, mapEntry_tagged]
        rw [erhs]
        apply buildPreds_serialized
        · exact storeWF_mapEntry _
        · exact storeWF_mapEntry ps
        · rw [keys_mapEntry]
          apply List.Nodup.sublist ?_ (hIDeqP ▸ hfreshP)
          exact (List.sublist_append_left _ _).append_left _
        · apply hashConsistentList_sub ?_ hcoll
          intro x hx
          rw [hG2vals, storeVals_mapEntry, List.append_assoc] at hx
          exact hsubP x hx
        · rw [hG2vals, storeVals_mapEntry]
          exact hpreds ▸ hanns ▸ hrefs.2.1
      have hyG : (((gs ++ L.anns.map (fun a => (n, a))) ++ goldStream d rest).map
          (fun e => e.2.hashId)).Nodup := by
        have e : ((gs ++ L.anns.map (fun a => (n, a))) ++ goldStream d rest).map
            (fun e => e.2.hashId)
            = gs.map (fun e => e.2.hashId)
              ++ (L.anns.map AnnData.hashId
                  ++ (goldStream d rest).map (fun e => e.2.hashId)) := by
          rw [List.map_append, List.map_append, hash_tagged, List.append_assoc]
        rw [e, ← hIDeqG]
        exact hfreshG
      have hyP : (((ps ++ L.preds.map (fun a => (n, a))) ++ predStream d rest).map
          (fun e => e.2.hashId)).Nodup := by
        have e : ((ps ++ L.preds.map (fun a => (n, a))) ++ predStream d rest).map
            (fun e => e.2.hashId)
            = ps.map (fun e => e.2.hashId)
              ++ (L.preds.map AnnData.hashId
                  ++ (predStream d rest).map (fun e => e.2.hashId)) := by
          rw [List.map_append, List.map_append, hash_tagged, List.append_assoc]
        rw [e, ← hIDeqP]
        exact hfreshP
      have hyC : hashConsistentList
          (((gs ++ L.anns.map (fun a => (n, a))) ++ goldStream d rest).map Prod.snd
            ++ ((ps ++ L.preds.map (fun a => (n, a))) ++ predStream d rest).map Prod.snd) := by
        have e1 : ((gs ++ L.anns.map (fun a => (n, a))) ++ goldStream d rest).map Prod.snd
            = (gs ++ goldStream d (n :: rest)).map Prod.snd := by
          rw [List.append_assoc, ← hGS]
        have e2 : ((ps ++ L.preds.map (fun a => (n, a))) ++ predStream d rest).map Prod.snd
            = (ps ++ predStream d (n :: rest)).map Prod.snd := by
          rw [List.append_assoc, ← hPS]
        rw [e1, e2]
        exact hcoll
      have hyR : refsOk d rest ((gs ++ L.anns.map (fun a => (n, a))).map Prod.snd)
          ((ps ++ L.preds.map (fun a => (n, a))).map Prod.snd) := by
        rw [List.map_append, snd_tagged, List.map_append, snd_tagged]
        exact hpreds ▸ hanns ▸ hrefs.2.2
      have ih := processLayers_asdict_eval d hlen rest
        (gs ++ L.anns.map (fun a => (n, a))) (ps ++ L.preds.map (fun a => (n, a)))
        hyG hyP hyC hyR
      calc processLayers d.spec d.asdict (n :: rest) (gs.map mapEntry) (ps.map mapEntry)
          = processLayers d.spec d.asdict rest
              ((gs ++ L.anns.map (fun a => (n, a))).map mapEntry)
              ((ps ++ L.preds.map (fun a => (n, a))).map mapEntry) := by
            simp only [processLayers, if_pos hn, hlk, Layer.serialize, hbg, hbp]
        _ = .ok ((gs ++ goldStream d (n :: rest)).map mapEntry,
                 (ps ++ predStream d (n :: rest)).map mapEntry) := by
            rw [ih, hGS, hPS, ← List.append_assoc, ← List.append_assoc]
    · have hanns : layerAnnsOf d n = [] := by
        rw [layerAnnsOf, layerNamed_none_of_not_mem hn]
      have hpreds : layerPredsOf d n = [] := by
        rw [layerPredsOf, layerNamed_none_of_not_mem hn]
      have hGS : goldStream d (n :: rest) = goldStream d rest := by
        rw [goldStream_cons, hanns]
        rfl
      have hPS : predStream d (n :: rest) = predStream d rest := by
        rw [predStream_cons, hpreds]
        rfl
      have hrefs2 : refsOk d rest (gs.map Prod.snd) (ps.map Prod.snd) := by
        have h0 := hrefs.2.2
        rw [hanns, hpreds, List.append_nil, List.append_nil] at h0
        exact h0
      have ih := processLayers_asdict_eval d hlen rest gs ps
        (hGS ▸ hfreshG) (hPS ▸ hfreshP) (by rw [← hGS, ← hPS]; exact hcoll) hrefs2
      calc processLayers d.spec d.asdict (n :: rest) (gs.map mapEntry) (ps.map mapEntry)
          = processLayers d.spec d.asdict rest (gs.map mapEntry) (ps.map mapEntry) := by
            simp only [processLayers, if_neg hn]
        _ = .ok ((gs ++ goldStream d (n :: rest)).map mapEntry,
                 (ps ++ predStream d (n :: rest)).map mapEntry) := by
            rw [ih, hGS, hPS]

/-! Replaying the accumulator values through the final append loops. -/

/-- Appending a batch of annotations to one layer (gold or prediction side). -/
def appendFiltered (L : Layer) (l : List AnnData) (isPred : Bool) : Layer :=
  if isPred then ⟨L.anns, L.preds ++ l⟩ else ⟨L.anns ++ l, L.preds⟩

/-- Effect of appending every entry of `entries` to its layer, batched per
layer position. -/
def appendAllTo (layers : List Layer) (names : List String)
    (entries : List (String × AnnData)) (isPred : Bool) : List Layer :=
  (names.zip layers).map (fun nl =>
    appendFiltered nl.2 ((entries.filter (fun e => e.1 == nl.1)).map Prod.snd) isPred)

theorem pdValues_mapEntry (l : List (String × AnnData)) :
    pdValues (l.map mapEntry) = l := by
  rw [pdValues, List.map_map]
  exact List.map_id _

theorem appendFiltered_nil (L : Layer) (isPred : Bool) :
    appendFiltered L [] isPred = L := by
  cases isPred <;> simp [appendFiltered]

theorem appendAllTo_nil (layers : List Layer) (names : List String) (isPred : Bool)
    (hle : layers.length ≤ names.length) :
    appendAllTo layers names [] isPred = layers := by
  rw [appendAllTo]
  have h1 : ∀ nl ∈ names.zip layers,
      appendFiltered nl.2 (([].filter (fun e => e.1 == nl.1)).map Prod.snd) isPred
        = Prod.snd nl := by
    intro nl _
    simpa using appendFiltered_nil nl.2 isPred
  rw [List.map_congr_left h1]
  exact List.map_snd_zip names layers hle

theorem appendAllTo_cons (names : List String) (layers : List Layer)
    (e : String × AnnData) (rest : List (String × AnnData)) (isPred : Bool) :
    appendAllTo layers names (e :: rest) isPred
      = appendAllTo ((names.zip layers).map (fun nl =>
          if nl.1 = e.1 then appendFiltered nl.2 [e.2] isPred else nl.2)) names rest isPred := by
  induction names generalizing layers with
  | nil => rfl
  | cons n ns ih =>
    cases layers with
    | nil => rfl
    | cons L Ls =>
      have htail := ih Ls
      simp only [appendAllTo, List.zip_cons_cons, List.map_cons] at htail ⊢
      rw [htail]
      congr 1
      · by_cases hne : n = e.1
        · have hb : (e.1 == n) = true := beq_iff_eq.mpr hne.symm
          rw [if_pos hne]
          simp only [List.filter_cons, hb, if_true, List.map_cons]
          cases isPred <;> simp [appendFiltered]
        · have hb : (e.1 == n) = false := beq_eq_false_iff_ne.mpr (fun hh => hne hh.symm)
          rw [if_neg hne]
          simp only [List.filter_cons, hb, Bool.false_eq_true, if_false]

theorem foldl_appendTo_eval (spec : DocSpec) (text : String) (docid : Option String)
    (meta : List (String × String)) (isPred : Bool) :
    ∀ (entries : List (String × AnnData)) (layers : List Layer),
    layers.length ≤ spec.names.length →
    entries.foldl (fun dd e => Doc.appendTo dd e.1 e.2 isPred)
        ⟨spec, text, docid, meta, layers⟩
      = ⟨spec, text, docid, meta, appendAllTo layers spec.names entries isPred⟩
  | [], layers, hle => by
    rw [List.foldl_nil, appendAllTo_nil layers spec.names isPred hle]
  | e :: rest, layers, hle => by
    have hstep : Doc.appendTo ⟨spec, text, docid, meta, layers⟩ e.1 e.2 isPred
        = ⟨spec, text, docid, meta, (spec.names.zip layers).map (fun nl =>
            if nl.1 = e.1 then appendFiltered nl.2 [e.2] isPred else nl.2)⟩ := rfl
    have hle2 : ((spec.names.zip layers).map (fun nl =>
        if nl.1 = e.1 then appendFiltered nl.2 [e.2] isPred else nl.2)).length
          ≤ spec.names.length := by
      rw [List.length_map, List.length_zip]
      exact Nat.min_le_left _ _
    rw [List.foldl_cons, hstep, foldl_appendTo_eval spec text docid meta isPred rest _ hle2,
      appendAllTo_cons]

theorem length_appendAllTo (layers : List Layer) (names : List String)
    (entries : List (String × AnnData)) (isPred : Bool) :
    (appendAllTo layers names entries isPred).length = min names.length layers.length := by
  rw [appendAllTo, List.length_map, List.length_zip]

/-- The final append loops of `fromdict`, on accumulators in entry form. -/
theorem applyStores_eval (spec : DocSpec) (text : String) (docid : Option String)
    (meta : List (String × String)) (layers : List Layer)
    (hle : layers.length ≤ spec.names.length)
    (golds preds : List (String × AnnData)) :
    applyStores ⟨spec, text, docid, meta, layers⟩ (golds.map mapEntry) (preds.map mapEntry)
      = ⟨spec, text, docid, meta,
         appendAllTo (appendAllTo layers spec.names golds false) spec.names preds true⟩ := by
  rw [applyStores, pdValues_mapEntry, pdValues_mapEntry]
  rw [foldl_appendTo_eval spec text docid meta false golds layers hle]
  apply foldl_appendTo_eval
  rw [length_appendAllTo]
  exact Nat.min_le_left _ _

theorem filter_tagged_self (n : String) (l : List AnnData) :
    ((l.map (fun a => (n, a))).filter (fun e => e.1 == n)).map Prod.snd = l := by
  induction l with
  | nil => rfl
  | cons a t ih =>
    simp only [List.map_cons, List.filter_cons, beq_self_eq_true, if_true]
    rw [ih]

theorem filter_tagged_other {n m : String} (hnm : m ≠ n) (l : List AnnData) :
    (l.map (fun a => (m, a))).filter (fun e => e.1 == n) = [] := by
  induction l with
  | nil => rfl
  | cons a t ih =>
    simp only [List.map_cons, List.filter_cons, beq_eq_false_iff_ne.mpr hnm,
      Bool.false_eq_true, if_false]
    exact ih

theorem filter_goldStream_not_mem (d : Doc) {n : String} :
    ∀ (order : List String), n ∉ order →
    (goldStream d order).filter (fun e => e.1 == n) = []
  | [], _ => rfl
  | m :: rest, hn => by
    have hm : m ≠ n := fun hh => hn (by rw [hh]; exact List.mem_cons_self _ _)
    have hrest : n ∉ rest := fun hh => hn (List.mem_cons_of_mem _ hh)
    rw [goldStream_cons, List.filter_append, filter_tagged_other hm,
      filter_goldStream_not_mem d rest hrest]
    rfl

theorem filter_predStream_not_mem (d : Doc) {n : String} :
    ∀ (order : List String), n ∉ order →
    (predStream d order).filter (fun e => e.1 == n) = []
  | [], _ => rfl
  | m :: rest, hn => by
    have hm : m ≠ n := fun hh => hn (by rw [hh]; exact List.mem_cons_self _ _)
    have hrest : n ∉ rest := fun hh => hn (List.mem_cons_of_mem _ hh)
    rw [predStream_cons, List.filter_append, filter_tagged_other hm,
      filter_predStream_not_mem d rest hrest]
    rfl

/-- Grouping the gold stream by field name recovers exactly that layer's
gold annotations, for any enumeration order without repetitions. -/
theorem filter_goldStream (d : Doc) :
    ∀ (order : List String), order.Nodup → ∀ {n : String}, n ∈ order →
    ((goldStream d order).filter (fun e => e.1 == n)).map Prod.snd = layerAnnsOf d n
  | [], _, n, hn => absurd hn (List.not_mem_nil _)
  | m :: rest, hnodup, n, hn => by
    by_cases hm : m = n
    · subst hm
      have hnr : m ∉ rest := (List.nodup_cons.mp hnodup).1
      rw [goldStream_cons, List.filter_append, filter_goldStream_not_mem d rest hnr,
        List.append_nil, filter_tagged_self]
    · have hnr : n ∈ rest := by
        rcases List.mem_cons.mp hn with h1 | h1
        · exact absurd h1.symm hm
        · exact h1
      rw [goldStream_cons, List.filter_append, filter_tagged_other hm, List.nil_append]
      exact filter_goldStream d rest (List.nodup_cons.mp hnodup).2 hnr

theorem filter_predStream (d : Doc) :
    ∀ (order : List String), order.Nodup → ∀ {n : String}, n ∈ order →
    ((predStream d order).filter (fun e => e.1 == n)).map Prod.snd = layerPredsOf d n
  | [], _, n, hn => absurd hn (List.not_mem_nil _)
  | m :: rest, hnodup, n, hn => by
    by_cases hm : m = n
    · subst hm
      have hnr : m ∉ rest := (List.nodup_cons.mp hnodup).1
      rw [predStream_cons, List.filter_append, filter_predStream_not_mem d rest hnr,
        List.append_nil, filter_tagged_self]
    · have hnr : n ∈ rest := by
        rcases List.mem_cons.mp hn with h1 | h1
        · exact absurd h1.symm hm
        · exact h1
      rw [predStream_cons, List.filter_append, filter_tagged_other hm, List.nil_append]
      exact filter_predStream d rest (List.nodup_cons.mp hnodup).2 hnr

/-- With distinct field names, the layer found by name is the layer at the
same position. -/
theorem layerNamed_at (d : Doc) (hnn : d.spec.names.Nodup) :
    ∀ {i : Nat} {n : String} {L : Layer}, d.spec.names[i]? = some n →
    d.layers[i]? = some L → d.layerNamed n = some L := by
  suffices hgen : ∀ (names : List String) (layers : List Layer), names.Nodup →
      ∀ (i : Nat) (n : String) (L : Layer), names[i]? = some n → layers[i]? = some L →
      (names.zip layers).lookup n = some L by
    intro i n L h1 h2
    exact hgen d.spec.names d.layers hnn i n L h1 h2
  intro names
  induction names with
  | nil =>
    intro layers _ i n L h1 _
    simp at h1
  | cons n0 ns ih =>
    intro layers hnodup i n L h1 h2
    cases layers with
    | nil => simp at h2
    | cons L0 Ls =>
      cases i with
      | zero =>
        simp only [List.getElem?_cons_zero, Option.some.injEq] at h1 h2
        subst h1
        subst h2
        simp [List.lookup]
      | succ j =>
        simp only [List.getElem?_cons_succ] at h1 h2
        have hmem : n ∈ ns := List.getElem?_mem h1
        have hne : (n == n0) = false := by
          apply beq_eq_false_iff_ne.mpr
          intro hh
          exact (List.nodup_cons.mp hnodup).1 (hh ▸ hmem)
        simp only [List.zip_cons_cons, List.lookup, hne]
        exact ih Ls (List.nodup_cons.mp hnodup).2 j n L h1 h2

theorem getElem?_zip_eval {α β : Type} :
    ∀ (l1 : List α) (l2 : List β) (i : Nat),
    (l1.zip l2)[i]? = (l1[i]?).bind (fun a => (l2[i]?).map (fun b => (a, b)))
  | [], l2, i => by cases l2 <;> simp
  | a :: t, [], i => by simp
  | a :: t, b :: u, 0 => by
    simp [List.zip_cons_cons]
  | a :: t, b :: u, j + 1 => by
    simp only [List.zip_cons_cons, List.getElem?_cons_succ]
    exact getElem?_zip_eval t u j

theorem getElem?_appendAllTo (layers : List Layer) (names : List String)
    (entries : List (String × AnnData)) (b : Bool) (i : Nat) :
    (appendAllTo layers names entries b)[i]?
      = (names[i]?).bind (fun n => (layers[i]?).map (fun L =>
          appendFiltered L ((entries.filter (fun e => e.1 == n)).map Prod.snd) b)) := by
  rw [appendAllTo, List.getElem?_map, getElem?_zip_eval]
  cases names[i]? <;> cases layers[i]? <;> rfl

/-- Round trip on the generic document model: with distinct field names, a
successfully computed dependency order covering every declared layer,
duplicate-free gold and prediction annotation sets (their content hashes
are pairwise distinct per category), collision-free hashes, and valid
references, `fromdict` inverts `asdict`. -/
theorem fromdict_asdict_of (d : Doc) (order : List String)
    (hnn : d.spec.names.Nodup)
    (hlen : d.layers.length = d.spec.layers.length)
    (hroot : "_artificial_root" ∉ d.spec.graphKeys)
    (horder : depOrder d.spec = .ok order)
    (hord : order.Nodup)
    (hcover : ∀ n ∈ d.spec.names, n ∈ order)
    (hfreshG : ((goldStream d order).map (fun e => e.2.hashId)).Nodup)
    (hfreshP : ((predStream d order).map (fun e => e.2.hashId)).Nodup)
    (hcoll : hashConsistentList ((goldStream d order).map Prod.snd
      ++ (predStream d order).map Prod.snd))
    (hrefs : refsOk d order [] []) :
    Doc.fromdict d.spec d.asdict = .ok d := by
  have hmk : mkDoc d.spec (d.asdict).text (d.asdict).docid
      (match (d.asdict).meta with | none => [] | some m => m)
      = .ok ⟨d.spec, d.text, d.docid, d.meta, d.spec.layers.map (fun _ => ⟨[], []⟩)⟩ := by
    rw [mkDoc, if_neg hroot]
    have hmeta : (match (d.asdict).meta with | none => [] | some m => m) = d.meta := by
      show (match (if d.meta = [] then none else some d.meta) with
            | none => [] | some m => m) = d.meta
      by_cases hm : d.meta = []
      · rw [if_pos hm, hm]
      · rw [if_neg hm]
    rw [hmeta]
    rfl
  have hpl := processLayers_asdict_eval d hlen order [] []
    (by exact hfreshG) (by exact hfreshP) (by exact hcoll) (by exact hrefs)
  simp only [List.map_nil, List.nil_append] at hpl
  have horder2 : enumDeps d.spec.graph [] d.spec.rootChildren [] = .ok order := horder
  have hnameslen : d.spec.names.length = d.spec.layers.length := List.length_map _ _
  have hle0 : (d.spec.layers.map (fun _ => (⟨[], []⟩ : Layer))).length
      ≤ d.spec.names.length := by
    rw [List.length_map, hnameslen]
  have happ := applyStores_eval d.spec d.text d.docid d.meta
    (d.spec.layers.map (fun _ => ⟨[], []⟩)) hle0 (goldStream d order) (predStream d order)
  have hlay : appendAllTo (appendAllTo (d.spec.layers.map (fun _ => ⟨[], []⟩))
      d.spec.names (goldStream d order) false) d.spec.names (predStream d order) true
      = d.layers := by
    apply List.ext_getElem?
    intro i
    rw [getElem?_appendAllTo, getElem?_appendAllTo]
    cases hni : d.spec.names[i]? with
    | none =>
      have hlna : d.spec.names.length ≤ i := by
        rw [← List.getElem?_eq_none_iff]
        exact hni
      have : d.layers.length ≤ i := by
        rw [hlen, ← hnameslen]
        exact hlna
      rw [List.getElem?_eq_none this]
      rfl
    | some n =>
      have hlti : i < d.spec.names.length := by
        by_contra hcon
        rw [List.getElem?_eq_none (Nat.le_of_not_lt hcon)] at hni
        cases hni
      have hlti2 : i < d.layers.length := by
        rw [hlen, ← hnameslen]
        exact hlti
      have hively : d.layers[i]? = some d.layers[i] :=
        List.getElem?_eq_getElem hlti2
      have hiv0 : (d.spec.layers.map (fun _ => (⟨[], []⟩ : Layer)))[i]?
          = some ⟨[], []⟩ := by
        rw [List.getElem?_map]
        have hx : i < d.spec.layers.length := by
          rw [← hnameslen]
          exact hlti
        rw [List.getElem?_eq_getElem hx]
        rfl
      have hnamed : d.layerNamed n = some d.layers[i] :=
        layerNamed_at d hnn hni hively
      have hmemord : n ∈ order := hcover n (List.getElem?_mem hni)
      have hga : ((goldStream d order).filter (fun e => e.1 == n)).map Prod.snd
          = d.layers[i].anns := by
        rw [filter_goldStream d order hord hmemord, layerAnnsOf, hnamed]
      have hpa : ((predStream d order).filter (fun e => e.1 == n)).map Prod.snd
          = d.layers[i].preds := by
        rw [filter_predStream d order hord hmemord, layerPredsOf, hnamed]
      rw [hively, hiv0]
      simp [appendFiltered, hga, hpa]
  rw [Doc.fromdict]
  simp only [hmk, horder2, hpl]
  rw [happ, hlay]

/-! Structural properties of `_enumerate_dependencies`. -/

/-- Dependencies-first order: every node in `r` has all its graph
dependencies at strictly earlier positions. -/
def depsBefore (g : List (String × List String)) (r : List String) : Prop :=
  ∀ (i : Nat) (v : String), r[i]? = some v → ∀ ds, g.lookup v = some ds → ∀ x ∈ ds,
    ∃ j, j < i ∧ r[j]? = some x

/-- The enumeration invariant relating the accumulator before and after a
call: the result extends the input by nodes off the current path, preserves
freedom from duplicates, and preserves the dependencies-first property. -/
def EnumInv (g : List (String × List String)) (resolved path r : List String) : Prop :=
  (∃ ext, r = resolved ++ ext ∧ ∀ x ∈ ext, x ∉ path) ∧
  (resolved.Nodup → r.Nodup) ∧
  (depsBefore g resolved → depsBefore g r)

theorem depsBefore_append {g : List (String × List String)} {r : List String} {v : String}
    (h : depsBefore g r)
    (hv : ∀ ds, g.lookup v = some ds → ∀ x ∈ ds, x ∈ r) :
    depsBefore g (r ++ [v]) := by
  intro i w hw ds hds x hx
  by_cases hi : i < r.length
  · rw [List.getElem?_append_left hi] at hw
    obtain ⟨j, hj, hjx⟩ := h i w hw ds hds x hx
    exact ⟨j, hj, by rw [List.getElem?_append_left (Nat.lt_trans hj hi)]; exact hjx⟩
  · have hwv : w = v := by
      have hlt : i < (r ++ [v]).length := (List.getElem?_eq_some_iff.mp hw).1
      rw [List.length_append, List.length_singleton] at hlt
      have hieq : i = r.length := by omega
      rw [hieq, List.getElem?_append_right (Nat.le_refl _), Nat.sub_self] at hw
      simpa using hw.symm
    have hxr : x ∈ r := hv ds (hwv ▸ hds) x hx
    obtain ⟨j, hjlt, hjx⟩ := List.mem_iff_getElem.mp hxr
    refine ⟨j, by omega, ?_⟩
    rw [List.getElem?_append_left hjlt, List.getElem?_eq_getElem hjlt, hjx]

theorem enumInv_trans {g : List (String × List String)} {a b c path : List String}
    (h1 : EnumInv g a path b) (h2 : EnumInv g b path c) : EnumInv g a path c := by
  obtain ⟨⟨e1, he1, hf1⟩, hn1, hd1⟩ := h1
  obtain ⟨⟨e2, he2, hf2⟩, hn2, hd2⟩ := h2
  refine ⟨⟨e1 ++ e2, ?_, ?_⟩, fun hn => hn2 (hn1 hn), fun hd => hd2 (hd1 hd)⟩
  · rw [he2, he1, List.append_assoc]
  · intro x hx
    rcases List.mem_append.mp hx with h | h
    · exact hf1 x h
    · exact hf2 x h

theorem enumInv_refl {g : List (String × List String)} {a path : List String} :
    EnumInv g a path a :=
  ⟨⟨[], by rw [List.append_nil], fun x hx => absurd hx (List.not_mem_nil x)⟩,
   id, id⟩

theorem enumInv_push {g : List (String × List String)} {resolved path r : List String}
    {node : String}
    (hinv : EnumInv g resolved (node :: path) r)
    (hnode : node ∉ resolved) (hpath : node ∉ path)
    (hdeps : ∀ ds, g.lookup node = some ds → ∀ x ∈ ds, x ∈ r) :
    EnumInv g resolved path (r ++ [node]) := by
  obtain ⟨⟨ext, hext, hfr⟩, hn, hd⟩ := hinv
  have hnodeext : node ∉ ext := fun hh => (hfr node hh) (List.mem_cons_self _ _)
  have hnoder : node ∉ r := by
    rw [hext]
    intro hh
    rcases List.mem_append.mp hh with h | h
    · exact hnode h
    · exact hnodeext h
  refine ⟨⟨ext ++ [node], by rw [hext, List.append_assoc], ?_⟩, ?_, ?_⟩
  · intro x hx
    rcases List.mem_append.mp hx with h | h
    · exact fun hc => (hfr x h) (List.mem_cons_of_mem _ hc)
    · rw [List.mem_singleton.mp h]
      exact hpath
  · intro hnodup
    apply List.nodup_append.mpr
    refine ⟨hn hnodup, List.nodup_singleton _, ?_⟩
    intro a ha hb
    rw [List.mem_singleton.mp hb] at ha
    exact hnoder ha
  · intro hdb
    exact depsBefore_append (hd hdb) hdeps


/-- Main invariant of `_enumerate_dependencies`: a successful run extends
the accumulator with nodes off the current path, reaches every requested
node, stays duplicate-free, and lists every dependency before its
dependent. -/
theorem enumDeps_ok_inv (g : List (String × List String)) :
    ∀ (resolved nodes currentPath : List String), ∀ (r : List String),
    enumDeps g resolved nodes currentPath = .ok r →
    EnumInv g resolved currentPath r ∧ ∀ n ∈ nodes, n ∈ r := by
  intro resolved nodes currentPath
  induction resolved, nodes, currentPath using enumDeps.induct g with
  | case1 resolved currentPath =>
    intro r h
    rw [enumDeps] at h
    cases h
    exact ⟨enumInv_refl, fun n hn => absurd hn (List.not_mem_nil n)⟩
  | case2 resolved currentPath node rest hpath =>
    intro r h
    rw [enumDeps, dif_pos hpath] at h
    cases h
  | case3 resolved currentPath node rest hpath hnode ih =>
    intro r h
    rw [enumDeps, dif_neg hpath, if_pos hnode] at h
    obtain ⟨hinv, hcov⟩ := ih r h
    refine ⟨hinv, ?_⟩
    intro n hn
    rcases List.mem_cons.mp hn with h1 | h1
    · subst h1
      obtain ⟨⟨ext, hext, _⟩, _, _⟩ := hinv
      rw [hext]
      exact List.mem_append.mpr (Or.inl hnode)
    · exact hcov n h1
  | case4 resolved currentPath node rest hpath hnode hg ih =>
    intro r h
    rw [enumDeps, dif_neg hpath, if_neg hnode, hg] at h
    obtain ⟨hinv, hcov⟩ := ih r h
    have hstepinv : EnumInv g resolved currentPath (resolved ++ [node]) := by
      refine ⟨⟨[node], rfl, ?_⟩, ?_, ?_⟩
      · intro x hx
        rw [List.mem_singleton.mp hx]
        exact hpath
      · intro hnodup
        apply List.nodup_append.mpr
        exact ⟨hnodup, List.nodup_singleton _,
          fun a ha hb => hnode (List.mem_singleton.mp hb ▸ ha)⟩
      · intro hdb
        apply depsBefore_append hdb
        intro ds hds
        rw [hg] at hds
        cases hds
    refine ⟨enumInv_trans hstepinv hinv, ?_⟩
    intro n hn
    rcases List.mem_cons.mp hn with h1 | h1
    · subst h1
      obtain ⟨⟨ext, hext, _⟩, _, _⟩ := hinv
      rw [hext]
      exact List.mem_append.mpr
        (Or.inl (List.mem_append.mpr (Or.inr (List.mem_singleton_self _))))
    · exact hcov n h1
  | case5 resolved currentPath node rest hpath hnode deps hg e herr ihdeps =>
    intro r h
    rw [enumDeps, dif_neg hpath, if_neg hnode, hg] at h
    have h2 : (match enumDeps g resolved deps (node :: currentPath) with
        | Except.error e => Except.error e
        | Except.ok r0 => enumDeps g (r0 ++ [node]) rest currentPath) = Except.ok r := h
    rw [herr] at h2
    cases h2
  | case6 resolved currentPath node rest hpath hnode deps hg r2 hok ihdeps ihrest =>
    intro r h
    rw [enumDeps, dif_neg hpath, if_neg hnode, hg] at h
    have h2 : (match enumDeps g resolved deps (node :: currentPath) with
        | Except.error e => Except.error e
        | Except.ok r0 => enumDeps g (r0 ++ [node]) rest currentPath) = Except.ok r := h
    rw [hok] at h2
    have h3 : enumDeps g (r2 ++ [node]) rest currentPath = Except.ok r := h2
    obtain ⟨hinv2, hcov2⟩ := ihrest r h3
    obtain ⟨hinv1, hcov1⟩ := ihdeps r2 hok
    have hstepinv : EnumInv g resolved currentPath (r2 ++ [node]) := by
      apply enumInv_push hinv1 hnode hpath
      intro ds hds
      rw [hg] at hds
      cases hds
      exact hcov1
    refine ⟨enumInv_trans hstepinv hinv2, ?_⟩
    intro n hn
    rcases List.mem_cons.mp hn with h1 | h1
    · subst h1
      obtain ⟨⟨ext, hext, _⟩, _, _⟩ := hinv2
      rw [hext]
      exact List.mem_append.mpr
        (Or.inl (List.mem_append.mpr (Or.inr (List.mem_singleton_self _))))
    · exact hcov2 n h1

/-- A successfully computed dependency order has no repetitions. -/
theorem depOrder_nodup {spec : DocSpec} {order : List String}
    (h : depOrder spec = .ok order) : order.Nodup := by
  obtain ⟨⟨ext, hext, _⟩, hn, _⟩ :=
    (enumDeps_ok_inv spec.graph [] spec.rootChildren [] order h).1
  exact hn List.nodup_nil

/-- A successfully computed dependency order lists every graph dependency
before its dependent. -/
theorem depOrder_depsBefore {spec : DocSpec} {order : List String}
    (h : depOrder spec = .ok order) : depsBefore spec.graph order := by
  obtain ⟨_, _, hd⟩ := (enumDeps_ok_inv spec.graph [] spec.rootChildren [] order h).1
  apply hd
  intro i v hv
  simp at hv

theorem lookup_append_left {κ α : Type} [BEq κ] {l1 l2 : List (κ × α)} {k : κ} {v : α}
    (h : l1.lookup k = some v) : (l1 ++ l2).lookup k = some v := by
  induction l1 with
  | nil => simp [List.lookup] at h
  | cons e t ih =>
    rcases e with ⟨k0, v0⟩
    cases hb : (k == k0) with
    | true =>
      rw [List.cons_append]
      simp only [List.lookup, hb] at h ⊢
      exact h
    | false =>
      rw [List.cons_append]
      simp only [List.lookup, hb] at h ⊢
      exact ih h

/-- A layer that declares a target contributes exactly the edge to its
target in the annotation graph. -/
theorem graph_lookup_layer (spec : DocSpec) (hnn : spec.names.Nodup)
    {L : LayerSpec} (hL : L ∈ spec.layers) {T : String} (hT : L.target = some T) :
    spec.graph.lookup L.name = some [T] := by
  apply lookup_append_left
  have hgen : ∀ (layers : List LayerSpec), (layers.map LayerSpec.name).Nodup →
      L ∈ layers →
      (layers.filterMap (fun L0 => L0.target.map (fun t => (L0.name, [t])))).lookup L.name
        = some [T] := by
    intro layers
    induction layers with
    | nil =>
      intro _ hmem
      cases hmem
    | cons L0 rest ih =>
      intro hnodup hmem
      rcases List.mem_cons.mp hmem with h1 | h1
      · subst h1
        rw [List.filterMap_cons, hT]
        simp [List.lookup]
      · have hname : (L.name == L0.name) = false := by
          apply beq_eq_false_iff_ne.mpr
          intro hh
          have hmemname : L.name ∈ rest.map LayerSpec.name :=
            List.mem_map.mpr ⟨L, h1, rfl⟩
          exact (List.nodup_cons.mp hnodup).1 (hh ▸ hmemname)
        have ihr := ih (List.nodup_cons.mp hnodup).2 h1
        cases hf : L0.target with
        | none =>
          rw [List.filterMap_cons, hf]
          exact ihr
        | some t0 =>
          rw [List.filterMap_cons, hf]
          simp only [Option.map_some, List.lookup, hname]
          exact ihr
  exact hgen spec.layers hnn hL

/-- In a successfully computed dependency order, the target of every
enumerated layer appears strictly before the layer itself. -/
theorem depOrder_target_before {spec : DocSpec} (hnn : spec.names.Nodup)
    {order : List String} (horder : depOrder spec = .ok order)
    {L : LayerSpec} (hL : L ∈ spec.layers) {T : String} (hT : L.target = some T)
    (hmem : L.name ∈ order) :
    ∃ (i : Nat) (j : Nat), i < j ∧ order[i]? = some T ∧ order[j]? = some L.name := by
  obtain ⟨j, hjlt, hjx⟩ := List.mem_iff_getElem.mp hmem
  have hdb := depOrder_depsBefore horder
  obtain ⟨i, hij, hix⟩ := hdb j L.name (by rw [List.getElem?_eq_getElem hjlt, hjx])
    [T] (graph_lookup_layer spec hnn hL hT) T (List.mem_singleton_self T)
  exact ⟨i, j, hij, hix, by rw [List.getElem?_eq_getElem hjlt, hjx]⟩

/-! Deduplication by content hash (general documents, duplicates allowed). -/

theorem lookup_mem {κ α : Type} [BEq κ] [LawfulBEq κ] {l : List (κ × α)} {k : κ} {v : α}
    (h : l.lookup k = some v) : (k, v) ∈ l := by
  induction l with
  | nil => cases h
  | cons e t ih =>
    rcases e with ⟨k0, v0⟩
    cases hb : (k == k0) with
    | true =>
      simp only [List.lookup, hb] at h
      cases h
      have hk : k = k0 := beq_iff_eq.mp hb
      rw [hk]
      exact List.mem_cons_self _ _
    | false =>
      simp only [List.lookup, hb] at h
      exact List.mem_cons_of_mem _ (ih h)

/-- Resolution preserves the content hash: the hash of a reconstructed
annotation equals the serialized id it was stored under, because relation
hashes factor through the hashes of the referenced annotations. -/
theorem resolveAnn_hash {S : PyDict (String × AnnData)} (hwf : StoreWF S) :
    ∀ {a w : AnnData}, resolveAnn S a.serData = .ok w → w.hashId = a.hashId := by
  intro a w h
  cases a with
  | span s e =>
    cases h
    rfl
  | labeledSpan s e l =>
    cases h
    rfl
  | lab l sc =>
    cases h
    rfl
  | rel ha ta l =>
    have h2 : (match pdGet? S ha.hashId, pdGet? S ta.hashId with
        | some hv, some tv => Except.ok (AnnData.rel hv.2 tv.2 l)
        | _, _ => Except.error "KeyError") = Except.ok w := h
    cases hH : pdGet? S ha.hashId with
    | none =>
      rw [hH] at h2
      cases hT : pdGet? S ta.hashId <;> rw [hT] at h2 <;> cases h2
    | some hv =>
      cases hT : pdGet? S ta.hashId with
      | none =>
        rw [hH, hT] at h2
        cases h2
      | some tv =>
        rw [hH, hT] at h2
        cases h2
        have hhv : hv.2.hashId = ha.hashId := hwf _ (lookup_mem hH)
        have htv : tv.2.hashId = ta.hashId := hwf _ (lookup_mem hT)
        simp [AnnData.hashId, hhv, htv]

theorem pdSet_keysNodup {α : Type} {D : PyDict α} {k : Nat} {v : α}
    (h : (D.map Prod.fst).Nodup) : ((pdSet D k v).map Prod.fst).Nodup := by
  by_cases hk : (D.lookup k).isSome
  · simp only [pdSet, if_pos hk, List.map_map]
    have he : ∀ e ∈ D, (Prod.fst ∘ fun e => if e.1 = k then (k, v) else e) e = e.1 := by
      intro e _
      by_cases hek : e.1 = k
      · simp [hek]
      · simp [hek]
    rw [List.map_congr_left he]
    exact h
  · simp only [pdSet, if_neg hk, List.map_append]
    apply List.nodup_append.mpr
    refine ⟨h, by simp, ?_⟩
    intro a ha hb
    have hak : a = k := by simpa using hb
    rw [Option.not_isSome_iff_eq_none] at hk
    subst hak
    rcases List.mem_map.mp ha with ⟨e, he, heq⟩
    rcases lookup_isSome_of_mem_keys (List.mem_map.mpr ⟨e, he, heq⟩) with ⟨w, hw⟩
    rw [hk] at hw
    cases hw

theorem buildGolds_wf (name : String) :
    ∀ (anns : List AnnData) (S G2 : PyDict (String × AnnData)),
    StoreWF S → (S.map Prod.fst).Nodup →
    buildGolds name S (anns.map AnnData.serialize) = .ok G2 →
    StoreWF G2 ∧ (G2.map Prod.fst).Nodup
  | [], S, G2, hwf, hnd, h => by
    cases h
    exact ⟨hwf, hnd⟩
  | a :: rest, S, G2, hwf, hnd, h => by
    rw [List.map_cons, buildGolds] at h
    cases hres : resolveAnn S (AnnData.serialize a).data with
    | error e =>
      rw [hres] at h
      cases h
    | ok w =>
      rw [hres] at h
      have hwh : w.hashId = a.hashId := resolveAnn_hash hwf hres
      have hwf2 : StoreWF (pdSet S a.hashId (name, w)) := by
        intro e he
        rcases pdSet_entry_cases he with h1 | h1
        · exact hwf e h1
        · rw [h1]
          exact hwh
      exact buildGolds_wf name rest _ G2 hwf2 (pdSet_keysNodup hnd) h

theorem buildPreds_wf (name : String) :
    ∀ (anns : List AnnData) (G P P2 : PyDict (String × AnnData)),
    StoreWF G → StoreWF P → (P.map Prod.fst).Nodup →
    buildPreds name G P (anns.map AnnData.serialize) = .ok P2 →
    StoreWF P2 ∧ (P2.map Prod.fst).Nodup
  | [], G, P, P2, hwfG, hwfP, hnd, h => by
    cases h
    exact ⟨hwfP, hnd⟩
  | a :: rest, G, P, P2, hwfG, hwfP, hnd, h => by
    rw [List.map_cons, buildPreds] at h
    cases hres : resolveAnn (pdUnion G P) (AnnData.serialize a).data with
    | error e =>
      rw [hres] at h
      cases h
    | ok w =>
      rw [hres] at h
      have hwh : w.hashId = a.hashId := resolveAnn_hash (storeWF_union hwfG hwfP) hres
      have hwf2 : StoreWF (pdSet P a.hashId (name, w)) := by
        intro e he
        rcases pdSet_entry_cases he with h1 | h1
        · exact hwfP e h1
        · rw [h1]
          exact hwh
      exact buildPreds_wf name rest G _ P2 hwfG hwf2 (pdSet_keysNodup hnd) h

theorem processLayers_wf (spec : DocSpec) (d : Doc) :
    ∀ (names : List String) (G P G2 P2 : PyDict (String × AnnData)),
    StoreWF G → (G.map Prod.fst).Nodup → StoreWF P → (P.map Prod.fst).Nodup →
    processLayers spec d.asdict names G P = .ok (G2, P2) →
    (StoreWF G2 ∧ (G2.map Prod.fst).Nodup) ∧ (StoreWF P2 ∧ (P2.map Prod.fst).Nodup)
  | [], G, P, G2, P2, hwfG, hndG, hwfP, hndP, h => by
    rw [processLayers] at h
    cases h
    exact ⟨⟨hwfG, hndG⟩, hwfP, hndP⟩
  | n :: rest, G, P, G2, P2, hwfG, hndG, hwfP, hndP, h => by
    rw [processLayers] at h
    by_cases hn : n ∈ spec.names
    · rw [if_pos hn, asdict_layers_lookup] at h
      cases hL : d.layerNamed n with
      | none =>
        rw [hL] at h
        exact processLayers_wf spec d rest G P G2 P2 hwfG hndG hwfP hndP h
      | some L =>
        rw [hL] at h
        cases hbg : buildGolds n G (L.anns.map AnnData.serialize) with
        | error e =>
          have h2 : Except.error e = Except.ok (G2, P2) := by
            rw [← h]
            show _ = (match buildGolds n G L.serialize.anns with
              | .error e => .error e
              | .ok golds2 =>
                match buildPreds n golds2 P L.serialize.preds with
                | .error e => .error e
                | .ok preds2 => processLayers spec d.asdict rest golds2 preds2)
            rw [show L.serialize.anns = L.anns.map AnnData.serialize from rfl, hbg]
          cases h2
        | ok Gn =>
          have h2 : (match buildPreds n Gn P (L.preds.map AnnData.serialize) with
              | .error e => .error e
              | .ok preds2 => processLayers spec d.asdict rest Gn preds2)
              = Except.ok (G2, P2) := by
            rw [← h]
            show _ = (match buildGolds n G L.serialize.anns with
              | .error e => .error e
              | .ok golds2 =>
                match buildPreds n golds2 P L.serialize.preds with
                | .error e => .error e
                | .ok preds2 => processLayers spec d.asdict rest golds2 preds2)
            rw [show L.serialize.anns = L.anns.map AnnData.serialize from rfl, hbg]
            rfl
          obtain ⟨hwfGn, hndGn⟩ := buildGolds_wf n L.anns G Gn hwfG hndG hbg
          cases hbp : buildPreds n Gn P (L.preds.map AnnData.serialize) with
          | error e =>
            rw [hbp] at h2
            cases h2
          | ok Pn =>
            rw [hbp] at h2
            obtain ⟨hwfPn, hndPn⟩ := buildPreds_wf n L.preds Gn P Pn hwfGn hwfP hndP hbp
            exact processLayers_wf spec d rest Gn Pn G2 P2 hwfGn hndGn hwfPn hndPn h2
    · rw [if_neg hn] at h
      exact processLayers_wf spec d rest G P G2 P2 hwfG hndG hwfP hndP h

/-- All gold annotations of a document, across its layers. -/
def allGold (d : Doc) : List AnnData :=
  d.layers.flatMap Layer.anns

/-- All predicted annotations of a document, across its layers. -/
def allPred (d : Doc) : List AnnData :=
  d.layers.flatMap Layer.preds

theorem storeVals_nodup {S : PyDict (String × AnnData)} (hwf : StoreWF S)
    (hnd : (S.map Prod.fst).Nodup) : (storeVals S).Nodup := by
  induction S with
  | nil => exact List.nodup_nil
  | cons e t ih =>
    rcases e with ⟨k, nm, w⟩
    have hvals : storeVals ((k, nm, w) :: t) = w :: storeVals t := rfl
    rw [hvals]
    apply List.nodup_cons.mpr
    constructor
    · intro hmem
      rcases List.mem_map.mp hmem with ⟨e0, he0, heq⟩
      have hk0 : e0.2.2.hashId = e0.1 := hwf e0 (List.mem_cons_of_mem _ he0)
      have hkw : w.hashId = k := hwf (k, nm, w) (List.mem_cons_self _ _)
      have : k ∈ t.map Prod.fst := by
        apply List.mem_map.mpr
        refine ⟨e0, he0, ?_⟩
        rw [← hk0, heq, hkw]
      exact (List.nodup_cons.mp hnd).1 this
    · exact ih (fun e he => hwf e (List.mem_cons_of_mem _ he)) (List.nodup_cons.mp hnd).2

theorem snd_pdValues (S : PyDict (String × AnnData)) :
    (pdValues S).map Prod.snd = storeVals S := by
  rw [pdValues, storeVals, List.map_map]
  rfl

/-- The final append loops on raw accumulators. -/
theorem applyStores_eval_raw (spec : DocSpec) (text : String) (docid : Option String)
    (meta : List (String × String)) (layers : List Layer)
    (hle : layers.length ≤ spec.names.length)
    (G P : PyDict (String × AnnData)) :
    applyStores ⟨spec, text, docid, meta, layers⟩ G P
      = ⟨spec, text, docid, meta,
         appendAllTo (appendAllTo layers spec.names (pdValues G) false)
           spec.names (pdValues P) true⟩ := by
  rw [applyStores, foldl_appendTo_eval spec text docid meta false (pdValues G) layers hle]
  apply foldl_appendTo_eval
  rw [length_appendAllTo]
  exact Nat.min_le_left _ _

theorem flat_anns_appendAllTo (ge pe : List (String × AnnData)) :
    ∀ (names : List String) (layers0 : List Layer),
    (∀ L ∈ layers0, L.anns = []) → layers0.length = names.length →
    (appendAllTo (appendAllTo layers0 names ge false) names pe true).flatMap Layer.anns
      = names.flatMap (fun n => (ge.filter (fun e => e.1 == n)).map Prod.snd)
  | [], layers0, hempty, hlen => by
    have : layers0 = [] := List.length_eq_zero.mp hlen
    subst this
    rfl
  | n :: ns, [], hempty, hlen => by
    cases hlen
  | n :: ns, L :: Ls, hempty, hlen => by
    have hL : L.anns = [] := hempty L (List.mem_cons_self _ _)
    have hrec := flat_anns_appendAllTo ge pe ns Ls
      (fun L0 hL0 => hempty L0 (List.mem_cons_of_mem _ hL0))
      (by simpa using hlen)
    show (appendFiltered (appendFiltered L ((ge.filter (fun e => e.1 == n)).map Prod.snd)
        false) ((pe.filter (fun e => e.1 == n)).map Prod.snd) true).anns
        ++ (appendAllTo (appendAllTo Ls ns ge false) ns pe true).flatMap Layer.anns
      = (ge.filter (fun e => e.1 == n)).map Prod.snd
        ++ ns.flatMap (fun n => (ge.filter (fun e => e.1 == n)).map Prod.snd)
    rw [hrec]
    simp [appendFiltered, hL]

theorem flat_preds_appendAllTo (ge pe : List (String × AnnData)) :
    ∀ (names : List String) (layers0 : List Layer),
    (∀ L ∈ layers0, L.preds = []) → layers0.length = names.length →
    (appendAllTo (appendAllTo layers0 names ge false) names pe true).flatMap Layer.preds
      = names.flatMap (fun n => (pe.filter (fun e => e.1 == n)).map Prod.snd)
  | [], layers0, hempty, hlen => by
    have : layers0 = [] := List.length_eq_zero.mp hlen
    subst this
    rfl
  | n :: ns, [], hempty, hlen => by
    cases hlen
  | n :: ns, L :: Ls, hempty, hlen => by
    have hL : L.preds = [] := hempty L (List.mem_cons_self _ _)
    have hrec := flat_preds_appendAllTo ge pe ns Ls
      (fun L0 hL0 => hempty L0 (List.mem_cons_of_mem _ hL0))
      (by simpa using hlen)
    show (appendFiltered (appendFiltered L ((ge.filter (fun e => e.1 == n)).map Prod.snd)
        false) ((pe.filter (fun e => e.1 == n)).map Prod.snd) true).preds
        ++ (appendAllTo (appendAllTo Ls ns ge false) ns pe true).flatMap Layer.preds
      = (pe.filter (fun e => e.1 == n)).map Prod.snd
        ++ ns.flatMap (fun n => (pe.filter (fun e => e.1 == n)).map Prod.snd)
    rw [hrec]
    simp [appendFiltered, hL]

/-- Grouping entries with duplicate-free values by duplicate-free names
yields a duplicate-free flattened list. -/
theorem nodup_group_filters (entries : List (String × AnnData)) :
    ∀ (names : List String), (entries.map Prod.snd).Nodup → names.Nodup →
    (names.flatMap (fun n => (entries.filter (fun e => e.1 == n)).map Prod.snd)).Nodup
  | [], _, _ => List.nodup_nil
  | n :: ns, hvals, hnn => by
    rw [List.flatMap_cons]
    apply List.nodup_append.mpr
    refine ⟨?_, nodup_group_filters entries ns hvals (List.nodup_cons.mp hnn).2, ?_⟩
    · exact ((List.filter_sublist _).map Prod.snd).nodup hvals
    · intro x hx hx2
      rcases List.mem_map.mp hx with ⟨e, he, heq⟩
      have hen : e.1 = n := by
        have := List.of_mem_filter he
        simpa using this
      have he2 : e ∈ entries := List.mem_of_mem_filter he
      rcases List.mem_flatMap.mp hx2 with ⟨m, hm, hxm⟩
      rcases List.mem_map.mp hxm with ⟨e2, he2m, heq2⟩
      have hem : e2.1 = m := by
        have := List.of_mem_filter he2m
        simpa using this
      have he22 : e2 ∈ entries := List.mem_of_mem_filter he2m
      have hee : e = e2 := by
        apply List.inj_on_of_nodup_map hvals he2 he22
        rw [heq, heq2]
      have : m = n := by
        rw [← hem, ← hee, hen]
      exact (List.nodup_cons.mp hnn).1 (this ▸ hm)

/-- After `fromdict` of any serialized document image, each category holds
at most one copy of each distinct annotation value: the accumulators are
keyed by content hash, so value-equal duplicates collapse. -/
theorem fromdict_asdict_nodup (spec : DocSpec) (hnn : spec.names.Nodup)
    (d doc : Doc) (h : Doc.fromdict spec d.asdict = .ok doc) :
    (allGold doc).Nodup ∧ (allPred doc).Nodup := by
  rw [Doc.fromdict] at h
  cases hmk : mkDoc spec (d.asdict).text (d.asdict).docid
      (match (d.asdict).meta with | none => [] | some m => m) with
  | error e =>
    rw [hmk] at h
    cases h
  | ok d0 =>
    rw [hmk] at h
    have hd0 : d0 = ⟨spec, (d.asdict).text, (d.asdict).docid,
        (match (d.asdict).meta with | none => [] | some m => m),
        spec.layers.map (fun _ => ⟨[], []⟩)⟩ := by
      rw [mkDoc] at hmk
      by_cases hroot : "_artificial_root" ∈ spec.graphKeys
      · rw [if_pos hroot] at hmk
        cases hmk
      · rw [if_neg hroot] at hmk
        cases hmk
        rfl
    cases henum : enumDeps spec.graph [] spec.rootChildren [] with
    | error e =>
      rw [henum] at h
      cases h
    | ok order =>
      rw [henum] at h
      have h2 : (match processLayers spec d.asdict order [] [] with
          | Except.error e => Except.error e
          | Except.ok sp => Except.ok (applyStores d0 sp.1 sp.2)) = Except.ok doc := h
      cases hpl : processLayers spec d.asdict order [] [] with
      | error e =>
        rw [hpl] at h2
        cases h2
      | ok sp =>
        rw [hpl] at h2
        cases h2
        obtain ⟨⟨hwfG, hndG⟩, hwfP, hndP⟩ :=
          processLayers_wf spec d order [] [] sp.1 sp.2
            (fun e he => absurd he (List.not_mem_nil e))
            List.nodup_nil
            (fun e he => absurd he (List.not_mem_nil e))
            List.nodup_nil
            (by rw [hpl])
        have hvalsG : ((pdValues sp.1).map Prod.snd).Nodup := by
          rw [snd_pdValues]
          exact storeVals_nodup hwfG hndG
        have hvalsP : ((pdValues sp.2).map Prod.snd).Nodup := by
          rw [snd_pdValues]
          exact storeVals_nodup hwfP hndP
        have hle : (spec.layers.map (fun _ => (⟨[], []⟩ : Layer))).length
            ≤ spec.names.length := by
          rw [List.length_map, DocSpec.names, List.length_map]
        have hlen0 : (spec.layers.map (fun _ => (⟨[], []⟩ : Layer))).length
            = spec.names.length := by
          rw [List.length_map, DocSpec.names, List.length_map]
        rw [hd0, applyStores_eval_raw spec _ _ _ _ hle sp.1 sp.2]
        constructor
        · rw [allGold]
          rw [flat_anns_appendAllTo (pdValues sp.1) (pdValues sp.2) spec.names
            (spec.layers.map (fun _ => ⟨[], []⟩)) ?_ hlen0]
          · exact nodup_group_filters (pdValues sp.1) spec.names hvalsG hnn
          · intro L hL
            rcases List.mem_map.mp hL with ⟨x, _, heq⟩
            rw [← heq]
        · rw [allPred]
          rw [flat_preds_appendAllTo (pdValues sp.1) (pdValues sp.2) spec.names
            (spec.layers.map (fun _ => ⟨[], []⟩)) ?_ hlen0]
          · exact nodup_group_filters (pdValues sp.2) spec.names hvalsP hnn
          · intro L hL
            rcases List.mem_map.mp hL with ⟨x, _, heq⟩
            rw [← heq]

/-! The `_target` back-reference model (`Annotation`, `BaseAnnotationList`). -/

/-- The Python value held by the `_target` back-reference: the text string
or the targeted `AnnotationList` object (modelled by its field name). -/
inductive TargetVal : Type where
  | text (s : String)
  | layerRef (name : String)
deriving DecidableEq, Repr

/-- An annotation object together with its `_target` back-reference (set
through `object.__setattr__` despite the frozen dataclass). -/
structure TAnn : Type where
  data : AnnData
  targetRef : Option TargetVal
deriving DecidableEq, Repr

/-- `Annotation.set_target`. -/
def TAnn.setTarget (a : TAnn) (t : Option TargetVal) : TAnn :=
  ⟨a.data, t⟩

/-- Python dataclass equality on annotations: the `_target` field is
declared with `hash=False` but not `compare=False`, so it takes part in
`__eq__` together with the payload fields. -/
def pyEqAnn (a b : TAnn) : Bool :=
  decide (a.data = b.data) && decide (a.targetRef = b.targetRef)

/-- Python `hash` on annotations: `_target` carries `hash=False` and is
excluded, so the hash is a function of the payload only. -/
def pyHashAnn (a : TAnn) : Nat :=
  a.data.hashId

/-- One `AnnotationList` with its declared target name and contents. -/
structure TLayer : Type where
  targetName : Option String
  anns : List TAnn
deriving DecidableEq, Repr

/-- A document for the back-reference model: a text field plus named
layers. -/
structure TDoc : Type where
  text : String
  layers : List (String × TLayer)
deriving DecidableEq, Repr

/-- `getattr(self._document, self._target)` for the target kinds used by
annotation layers: the text field yields the text string, any other field
yields the `AnnotationList` object. -/
def TDoc.getattrTarget (d : TDoc) (t : Option String) : Option TargetVal :=
  t.map (fun n => if n = "text" then .text d.text else .layerRef n)

/-- The layer contents after `BaseAnnotationList.append`: the target is
resolved on the document and set on the annotation before it is stored. -/
def TLayer.appended (d : TDoc) (a : TAnn) (L : TLayer) : TLayer :=
  ⟨L.targetName, L.anns ++ [a.setTarget (d.getattrTarget L.targetName)]⟩

/-- `BaseAnnotationList.append` on the layer named `name`. -/
def TDoc.appendAnn (d : TDoc) (name : String) (a : TAnn) : TDoc :=
  ⟨d.text, d.layers.map (fun e => if e.1 = name then (e.1, TLayer.appended d a e.2) else e)⟩

/-- The layer contents after `BaseAnnotationList.clear`. -/
def TLayer.cleared (L : TLayer) : TLayer :=
  ⟨L.targetName, []⟩

/-- `BaseAnnotationList.clear` on the layer named `name`: every annotation
object has its back-reference reset to `None`, then the list is emptied.
The second component holds the detached annotation objects as mutated. -/
def TDoc.clearLayer (d : TDoc) (name : String) : TDoc × List TAnn :=
  (⟨d.text, d.layers.map (fun e => if e.1 = name then (e.1, TLayer.cleared e.2) else e)⟩,
   match d.layers.lookup name with
   | some L => L.anns.map (fun a => a.setTarget none)
   | none => [])

theorem lookup_map_if {β : Type} (l : List (String × β)) (name : String) (g : β → β) :
    (l.map (fun e => if e.1 = name then (e.1, g e.2) else e)).lookup name
      = (l.lookup name).map g := by
  induction l with
  | nil => rfl
  | cons e t ih =>
    rcases e with ⟨k, v⟩
    by_cases hk : k = name
    · subst hk
      rw [List.map_cons, if_pos (show (k, v).1 = k from rfl)]
      simp [List.lookup]
    · have hb : (name == k) = false := beq_eq_false_iff_ne.mpr (fun hh => hk hh.symm)
      rw [List.map_cons, if_neg (show ¬ ((k, v).1 = name) from hk)]
      simp only [List.lookup, hb]
      exact ih

/-! The task-module encode protocol (`TaskModule.encode`) and the
`unbatch_output` implementations. -/

/-- One `TaskEncoding` record: input features, originating document,
optional target, metadata. -/
structure TaskEncoding (I M D T : Type) : Type where
  input : I
  document : D
  target : Option T
  metadata : M

/-- The document list used after `encode_input`: the expanded documents
when the task module returned them, the input documents otherwise. -/
def TaskModule.effectiveDocs {I M D : Type}
    (encodeInput : List D → List I × List M × Option (List D))
    (documents : List D) : List D :=
  match (encodeInput documents).2.2 with
  | some nd => nd
  | none => documents

/-- `TaskModule.encode`: run `encode_input`, adopt the expanded documents,
optionally run `encode_target`, assert that the parallel lists have equal
length (a fatal `AssertionError` otherwise), and zip the lists into
`TaskEncoding` records. -/
def TaskModule.encode {I M D T : Type}
    (encodeInput : List D → List I × List M × Option (List D))
    (encodeTarget : List D → List I → List M → List T)
    (documents : List D) (withTarget : Bool) :
    Except String (List (TaskEncoding I M D T)) :=
  let inputEncoding := (encodeInput documents).1
  let metadata := (encodeInput documents).2.1
  let documents2 := TaskModule.effectiveDocs encodeInput documents
  if withTarget then
    let target := encodeTarget documents2 inputEncoding metadata
    if inputEncoding.length = metadata.length ∧ inputEncoding.length = target.length
        ∧ inputEncoding.length = documents2.length then
      .ok ((inputEncoding.zip (metadata.zip (target.zip documents2))).map
        (fun x => ⟨x.1, x.2.2.2, some x.2.2.1, x.2.1⟩))
    else
      .error "AssertionError: lists must be of same length"
  else
    if inputEncoding.length = metadata.length ∧ inputEncoding.length = documents2.length then
      .ok ((inputEncoding.zip (metadata.zip documents2)).map
        (fun x => ⟨x.1, x.2.2, none, x.2.1⟩))
    else
      .error "AssertionError: lists must be of same length"

def argmaxGo (best : ℚ) (bestIdx : Nat) (i : Nat) : List ℚ → Nat
  | [] => bestIdx
  | x :: xs => if best < x then argmaxGo x i (i + 1) xs else argmaxGo best bestIdx (i + 1) xs

/-- First index of a maximal element (`np.argmax` / `torch.argmax`
tie-breaking). -/
def npArgmax : List ℚ → Nat
  | [] => 0
  | x :: xs => argmaxGo x 0 1 xs

/-- Probability stored for a chosen label. -/
def rowProb (row : List ℚ) (i : Nat) : ℚ :=
  row.getD i 0

/-- The aggregate result dict of the single-label path of
`TransformerTextClassificationTaskModule.unbatch_output`. -/
structure TextClsOutput : Type where
  labels : List String
  probs : List ℚ
deriving DecidableEq, Repr

/-- `TransformerTextClassificationTaskModule.unbatch_output`. The float
softmax/sigmoid normalization is abstracted away: the function consumes
the normalized probability matrix (one row per collated encoding), which
changes neither the argmax structure nor, decisively, the number of
outputs. In the single-label path one aggregate result dict is built for
the whole batch and appended exactly once to the returned list;
the multi-label path raises `NotImplementedError`. -/
def textClsUnbatchOutput (idToLabel : Nat → String) (multiLabel : Bool)
    (outputLabelProbs : List (List ℚ)) : Except String (List TextClsOutput) :=
  if multiLabel then
    .error "NotImplementedError"
  else
    .ok [⟨outputLabelProbs.map (fun row => idToLabel (npArgmax row)),
          outputLabelProbs.map (fun row => rowProb row (npArgmax row))⟩]

/-- One per-encoding output of
`TransformerTokenClassificationTaskModule.unbatch_output`. -/
structure TokenClsOutput : Type where
  tags : List String
  probs : List (List ℚ)
deriving DecidableEq, Repr

/-- `TransformerTokenClassificationTaskModule.unbatch_output`: one output
per batch row, tags by per-token argmax. -/
def tokenClsUnbatchOutput (idToLabel : Nat → String)
    (probs : List (List (List ℚ))) : List TokenClsOutput :=
  probs.map (fun mat => ⟨mat.map (fun row => idToLabel (npArgmax row)), mat⟩)

/-! Concrete document types and instances used in the claim theorems. -/

/-- The document type of the concrete scenario: `entities` targets the
text, `relations` targets `entities`. -/
def entRelSpec : DocSpec :=
  ⟨[⟨"entities", some "text"⟩, ⟨"relations", some "entities"⟩]⟩

def entity1 : AnnData := .labeledSpan 0 8 "PER"

def entity2 : AnnData := .labeledSpan 18 19 "ORG"

def relation1 : AnnData := .rel entity1 entity2 "works"

def predEntity : AnnData := .labeledSpan 2 3 "X"

def predRel : AnnData := .rel entity1 predEntity "p"

/-- The concrete scenario document, with gold entities and a gold relation
plus a predicted entity and a predicted relation referencing one gold and
one predicted annotation. -/
def sceneDoc : Doc :=
  ⟨entRelSpec, "Entity A works at B.", some "ABC123", [],
   [⟨[entity1, entity2], [predEntity]⟩, ⟨[relation1], [predRel]⟩]⟩

/-- A document whose gold relation references a prediction-only entity. -/
def goldRefsPredDoc : Doc :=
  ⟨entRelSpec, "T", none, [],
   [⟨[entity1], [predEntity]⟩, ⟨[.rel entity1 predEntity "z"], []⟩]⟩

def entSpec : DocSpec := ⟨[⟨"entities", some "text"⟩]⟩

/-- A document with a duplicated gold annotation. -/
def dupDoc : Doc := ⟨entSpec, "t", none, [], [⟨[.span 0 1, .span 0 1], []⟩]⟩

/-- The same document after the duplicate collapses. -/
def dupDocCollapsed : Doc := ⟨entSpec, "t", none, [], [⟨[.span 0 1], []⟩]⟩

/-- A document type whose two layers target each other. -/
def cycSpec : DocSpec := ⟨[⟨"a", some "b"⟩, ⟨"b", some "a"⟩]⟩

/-- A document type with a cycle reachable from an untargeted layer. -/
def cycSpec3 : DocSpec := ⟨[⟨"x", some "a"⟩, ⟨"a", some "b"⟩, ⟨"b", some "a"⟩]⟩

theorem enumDeps_entRel :
    enumDeps entRelSpec.graph [] entRelSpec.rootChildren []
      = .ok ["text", "entities", "relations"] := by
  simp [enumDeps, entRelSpec, DocSpec.graph, DocSpec.rootChildren, DocSpec.names,
    DocSpec.targeted, List.lookup]

theorem enumDeps_ent :
    enumDeps entSpec.graph [] entSpec.rootChildren [] = .ok ["text", "entities"] := by
  simp [enumDeps, entSpec, DocSpec.graph, DocSpec.rootChildren, DocSpec.names,
    DocSpec.targeted, List.lookup]

theorem enumDeps_cyc :
    enumDeps cycSpec.graph [] cycSpec.rootChildren [] = .ok [] := by
  simp [enumDeps, cycSpec, DocSpec.graph, DocSpec.rootChildren, DocSpec.names,
    DocSpec.targeted, List.lookup]

theorem enumDeps_cyc3 :
    enumDeps cycSpec3.graph [] cycSpec3.rootChildren []
      = .error "circular dependency detected at node: a" := by
  simp [enumDeps, cycSpec3, DocSpec.graph, DocSpec.rootChildren, DocSpec.names,
    DocSpec.targeted, List.lookup]

theorem fromdict_sceneDoc_eval :
    Doc.fromdict entRelSpec sceneDoc.asdict = .ok sceneDoc := by
  rw [Doc.fromdict, enumDeps_entRel]
  decide

theorem fromdict_goldRefsPred_eval :
    Doc.fromdict entRelSpec goldRefsPredDoc.asdict = .error "KeyError" := by
  rw [Doc.fromdict, enumDeps_entRel]
  decide

theorem fromdict_dupDoc_eval :
    Doc.fromdict entSpec dupDoc.asdict = .ok dupDocCollapsed := by
  rw [Doc.fromdict, enumDeps_ent]
  decide

/-! Claim theorems. -/

/-- C1 (amended): round-trip law `Document.fromdict (d.asdict()) == d` with
idempotent serialization. As universally stated the claim fails, because
value-equal annotations collapse under the content-hash accumulator (see
the counterexample); it holds for every document of every declared type
whose layer names are distinct, whose dependency enumeration succeeds and
covers every layer, whose gold annotations are pairwise distinct and
predictions pairwise distinct (their content hashes per category are
duplicate-free), whose hashes are collision-free, and whose relations
reference already-attached annotations. -/
theorem C1_roundtrip (d : Doc) (order : List String)
    (hnn : d.spec.names.Nodup)
    (hlen : d.layers.length = d.spec.layers.length)
    (hroot : "_artificial_root" ∉ d.spec.graphKeys)
    (horder : depOrder d.spec = .ok order)
    (hcover : ∀ n ∈ d.spec.names, n ∈ order)
    (hfreshG : ((goldStream d order).map (fun e => e.2.hashId)).Nodup)
    (hfreshP : ((predStream d order).map (fun e => e.2.hashId)).Nodup)
    (hcoll : hashConsistentList ((goldStream d order).map Prod.snd
      ++ (predStream d order).map Prod.snd))
    (hrefs : refsOk d order [] []) :
    Doc.fromdict d.spec d.asdict = .ok d ∧
    (Doc.fromdict d.spec d.asdict).map Doc.asdict = .ok d.asdict := by
  have h := fromdict_asdict_of d order hnn hlen hroot horder (depOrder_nodup horder)
    hcover hfreshG hfreshP hcoll hrefs
  refine ⟨h, ?_⟩
  rw [h]
  rfl

/-- C1 witness: the concrete scenario document with gold entities, a gold
relation, a predicted entity and a predicted relation round-trips. -/
theorem C1_roundtrip_witness :
    Doc.fromdict sceneDoc.spec sceneDoc.asdict = .ok sceneDoc ∧
    (Doc.fromdict sceneDoc.spec sceneDoc.asdict).map Doc.asdict = .ok sceneDoc.asdict :=
  C1_roundtrip sceneDoc ["text", "entities", "relations"] (by decide) (by decide)
    (by decide) enumDeps_entRel (by decide) (by decide) (by decide) (by decide) (by decide)

/-- C1 counterexample: a document holding the same annotation value twice
in one gold layer does not round-trip (the duplicate collapses), and its
serialization is not reproduced either. -/
theorem C1_roundtrip_counterexample :
    ¬ (Doc.fromdict dupDoc.spec dupDoc.asdict = .ok dupDoc ∧
       (Doc.fromdict dupDoc.spec dupDoc.asdict).map Doc.asdict = .ok dupDoc.asdict) := by
  intro hc
  have h2 : Doc.fromdict entSpec dupDoc.asdict = .ok dupDoc := hc.1
  rw [fromdict_dupDoc_eval] at h2
  exact absurd h2 (by decide)

/-- C2: `fromdict` reconstructs layers in dependency order. In every
successfully computed dependency order each layer's target precedes the
layer (so `entities` is fully rebuilt and in the accumulator before any
`relations` entry is resolved); for the entities/relations type the order
is text, entities, relations; the scenario document round-trips with the
relation heads resolved to the reconstructed entities, including a
prediction referencing both a gold and a predicted annotation (union
accumulator); a gold relation referencing a prediction-only annotation
fails with `KeyError` (gold resolves against the gold accumulator only). -/
theorem C2_dependency_order :
    (∀ (spec : DocSpec), spec.names.Nodup →
      ∀ (order : List String), depOrder spec = .ok order →
      ∀ L ∈ spec.layers, ∀ (T : String), L.target = some T → L.name ∈ order →
      ∃ (i j : Nat), i < j ∧ order[i]? = some T ∧ order[j]? = some L.name) ∧
    depOrder entRelSpec = .ok ["text", "entities", "relations"] ∧
    Doc.fromdict entRelSpec sceneDoc.asdict = .ok sceneDoc ∧
    Doc.fromdict entRelSpec goldRefsPredDoc.asdict = .error "KeyError" := by
  refine ⟨?_, enumDeps_entRel, fromdict_sceneDoc_eval, fromdict_goldRefsPred_eval⟩
  intro spec hnn order horder L hL T hT hmem
  exact depOrder_target_before hnn horder hL hT hmem

/-- C2 witness: `entities` precedes `relations` in the computed order of
the entities/relations document type. -/
theorem C2_dependency_order_witness :
    ∃ (i j : Nat), i < j
      ∧ (["text", "entities", "relations"] : List String)[i]? = some "entities"
      ∧ (["text", "entities", "relations"] : List String)[j]? = some "relations" :=
  C2_dependency_order.1 entRelSpec (by decide) ["text", "entities", "relations"]
    enumDeps_entRel ⟨"relations", some "entities"⟩ (by decide) "entities" rfl (by decide)

/-- C3 counterexample: constructing a Document of a type whose layer graph
is cyclic does not fail; `__post_init__` performs no cycle check and a
Document instance is returned. -/
theorem C3_counterexample :
    mkDoc cycSpec "t" none [] = .ok ⟨cycSpec, "t", none, [], [⟨[], []⟩, ⟨[], []⟩]⟩ := by
  decide

/-- C3 (amended): a cyclic document type is constructed without error; the
circular-dependency `ValueError` is raised only by `fromdict` while
enumerating dependencies, and only when a cycle node is reachable from an
untargeted layer; a fully targeted cycle is silently skipped, its
serialized annotations dropped. -/
theorem C3_cycle_behavior :
    (mkDoc cycSpec "t" none []).isOk = true ∧
    (mkDoc cycSpec3 "t" none []).isOk = true ∧
    Doc.fromdict cycSpec3 ⟨"t", none, none,
        [("x", ⟨[], []⟩), ("a", ⟨[], []⟩), ("b", ⟨[], []⟩)]⟩
      = .error "circular dependency detected at node: a" ∧
    Doc.fromdict cycSpec ⟨"t", none, none,
        [("a", ⟨[⟨.span 0 1, 7⟩], []⟩), ("b", ⟨[], []⟩)]⟩
      = .ok ⟨cycSpec, "t", none, [], [⟨[], []⟩, ⟨[], []⟩]⟩ := by
  refine ⟨by decide, by decide, ?_, ?_⟩
  · rw [Doc.fromdict, enumDeps_cyc3]
    decide
  · rw [Doc.fromdict, enumDeps_cyc]
    decide

/-- C10: `fromdict` keys reconstructed annotations by content hash in one
accumulator per category shared across layers, so after
`fromdict (d.asdict())` each of the gold and prediction categories holds at
most one copy of each distinct annotation value. -/
theorem C10_hash_dedup (spec : DocSpec) (hnn : spec.names.Nodup) (d doc : Doc)
    (h : Doc.fromdict spec d.asdict = .ok doc) :
    (allGold doc).Nodup ∧ (allPred doc).Nodup :=
  fromdict_asdict_nodup spec hnn d doc h

/-- C10 witness: deserializing the document with a duplicated gold span
yields duplicate-free categories. -/
theorem C10_hash_dedup_witness :
    (allGold dupDocCollapsed).Nodup ∧ (allPred dupDocCollapsed).Nodup :=
  C10_hash_dedup entSpec (by decide) dupDoc dupDocCollapsed fromdict_dupDoc_eval


/-- C4 counterexample: two annotations with identical payload fields but
different `_target` back-references have equal hash but are NOT equal —
`_target` is declared with `hash=False` only, not `compare=False`, so it
takes part in dataclass equality. The claim asserts they are equal. -/
theorem C4_counterexample :
    pyEqAnn ⟨.span 1 2, none⟩ ⟨.span 1 2, some (.text "t")⟩ = false ∧
    pyHashAnn ⟨.span 1 2, none⟩ = pyHashAnn ⟨.span 1 2, some (.text "t")⟩ := by
  decide

/-- C4 (amended): the hash never depends on `_target` — appending (which
sets the target resolved by `getattr`) and clearing (which resets it to
`None`) leave the hash unchanged — but equality compares `_target` besides
the payload, so annotations with identical payloads are equal exactly when
their targets also agree, and setting a target moves the annotation to a
different equality class whenever the new target differs. -/
theorem C4_eq_hash (a b : TAnn) (t : Option TargetVal) (d : TDoc) (tn : Option String) :
    pyHashAnn (a.setTarget (d.getattrTarget tn)) = pyHashAnn a ∧
    pyHashAnn (a.setTarget none) = pyHashAnn a ∧
    (pyEqAnn a b = true ↔ a.data = b.data ∧ a.targetRef = b.targetRef) ∧
    (pyEqAnn (a.setTarget t) a = true ↔ t = a.targetRef) := by
  refine ⟨rfl, rfl, ?_, ?_⟩
  · rw [pyEqAnn, Bool.and_eq_true, decide_eq_true_eq, decide_eq_true_eq]
  · rw [pyEqAnn, Bool.and_eq_true, decide_eq_true_eq, decide_eq_true_eq]
    simp [TAnn.setTarget]

/-- C7: appending to a layer whose declared target is the `text` field
sets the appended annotation's target to the document's text; clearing the
layer empties it and resets the target of every previously appended
annotation object to `None`. -/
theorem C7_append_clear (d : TDoc) (name : String) (L : TLayer) (a : TAnn)
    (hL : d.layers.lookup name = some L) (htext : L.targetName = some "text") :
    (d.appendAnn name a).layers.lookup name
      = some ⟨L.targetName, L.anns ++ [⟨a.data, some (.text d.text)⟩]⟩ ∧
    (d.clearLayer name).1.layers.lookup name = some ⟨L.targetName, []⟩ ∧
    (∀ x ∈ (d.clearLayer name).2, x.targetRef = none) ∧
    (d.clearLayer name).2 = L.anns.map (fun x => x.setTarget none) := by
  have happ : (d.appendAnn name a).layers.lookup name
      = (d.layers.lookup name).map (TLayer.appended d a) :=
    lookup_map_if d.layers name (TLayer.appended d a)
  have hclr : (d.clearLayer name).1.layers.lookup name
      = (d.layers.lookup name).map TLayer.cleared :=
    lookup_map_if d.layers name TLayer.cleared
  have h2 : (d.clearLayer name).2 = L.anns.map (fun x => x.setTarget none) := by
    show (match d.layers.lookup name with
      | some L0 => L0.anns.map (fun x : TAnn => x.setTarget none)
      | none => ([] : List TAnn)) = _
    rw [hL]
  refine ⟨?_, ?_, ?_, h2⟩
  · rw [happ, hL]
    simp [TLayer.appended, TDoc.getattrTarget, htext, TAnn.setTarget]
  · rw [hclr, hL]
    rfl
  · intro x hx
    rw [h2] at hx
    rcases List.mem_map.mp hx with ⟨x0, hx0, heq⟩
    rw [← heq]
    rfl

/-- A sentence-layer document for the C7 witness: a text-targeted layer
holding one already appended span. -/
def sentDoc : TDoc :=
  ⟨"Entity A works at B.",
   [("sentences", ⟨some "text", [⟨.span 0 20, some (.text "Entity A works at B.")⟩]⟩)]⟩

/-- C7 witness: appending `Span(start=1, end=2)` to the `sentences` layer
targets it at the document text; clearing detaches every entry. -/
theorem C7_append_clear_witness :
    (sentDoc.appendAnn "sentences" ⟨.span 1 2, none⟩).layers.lookup "sentences"
      = some ⟨some "text", [⟨.span 0 20, some (.text "Entity A works at B.")⟩,
          ⟨.span 1 2, some (.text "Entity A works at B.")⟩]⟩ ∧
    (sentDoc.clearLayer "sentences").1.layers.lookup "sentences"
      = some ⟨some "text", []⟩ ∧
    (∀ x ∈ (sentDoc.clearLayer "sentences").2, x.targetRef = none) ∧
    (sentDoc.clearLayer "sentences").2
      = [(⟨.span 0 20, some (.text "Entity A works at B.")⟩ : TAnn)].map
          (fun x => x.setTarget none) :=
  C7_append_clear sentDoc "sentences"
    ⟨some "text", [⟨.span 0 20, some (.text "Entity A works at B.")⟩]⟩
    ⟨.span 1 2, none⟩ (by decide) (by decide)

/-- C9: indexing a Document with an undeclared layer name raises the
descriptive `KeyError`; every declared layer name returns its layer. -/
theorem C9_getitem (d : Doc) (key : String)
    (hlen : d.layers.length = d.spec.layers.length) :
    (key ∉ d.spec.names →
      d.getItem key = .error ("Document has no attribute " ++ key ++ ".")) ∧
    (key ∈ d.spec.names → ∃ L, d.getItem key = .ok L ∧ d.layerNamed key = some L) := by
  constructor
  · intro hk
    rw [Doc.getItem, if_neg hk]
  · intro hk
    obtain ⟨L, hL⟩ := layerNamed_isSome_of_mem hlen hk
    refine ⟨L, ?_, hL⟩
    rw [Doc.getItem, if_pos hk]
    have hL2 : (d.spec.names.zip d.layers).lookup key = some L := hL
    rw [hL2]

/-- C9 witness at the scenario document. -/
theorem C9_getitem_witness :
    sceneDoc.getItem "badkey" = .error "Document has no attribute badkey." ∧
    (∃ L, sceneDoc.getItem "relations" = .ok L
      ∧ sceneDoc.layerNamed "relations" = some L) :=
  ⟨(C9_getitem sceneDoc "badkey" (by decide)).1 (by decide),
   (C9_getitem sceneDoc "relations" (by decide)).2 (by decide)⟩

/-- C5: `asdict` serializes each annotation entry as its field mapping
plus `_id` equal to the content hash; reference fields of relations hold
the referenced annotation's id, never the live object; concretely, the
serialized head of the scenario relation is `hash(entity1)`. -/
theorem C5_asdict_ids :
    (∀ (d : Doc) (i : Nat) (n : String) (li : Layer),
      d.spec.names[i]? = some n → d.layers[i]? = some li →
      (d.asdict).layers[i]? = some (n, li.serialize) ∧
      ∀ (j : Nat) (a : AnnData), li.anns[j]? = some a →
        li.serialize.anns[j]? = some ⟨a.serData, a.hashId⟩) ∧
    (∀ (h t : AnnData) (l : String),
      (AnnData.rel h t l).serData = .rel h.hashId t.hashId l) ∧
    (sceneDoc.asdict).layers.lookup "relations"
      = some ⟨[⟨.rel entity1.hashId entity2.hashId "works", relation1.hashId⟩],
              [⟨.rel entity1.hashId predEntity.hashId "p", predRel.hashId⟩]⟩ := by
  refine ⟨?_, fun h t l => rfl, by decide⟩
  intro d i n li hn hi
  constructor
  · have he : (d.asdict).layers
        = (d.spec.names.zip d.layers).map (fun e => (e.1, e.2.serialize)) := rfl
    rw [he, List.getElem?_map, getElem?_zip_eval, hn, hi]
    rfl
  · intro j a ha
    have he : li.serialize.anns = li.anns.map AnnData.serialize := rfl
    rw [he, List.getElem?_map, ha]
    rfl

/-- C5 witness: the relations layer of the scenario document serializes
with ids in the head and tail slots. -/
theorem C5_asdict_ids_witness :
    (sceneDoc.asdict).layers[1]?
      = some ("relations", (⟨[relation1], [predRel]⟩ : Layer).serialize) ∧
    (⟨[relation1], [predRel]⟩ : Layer).serialize.anns[0]?
      = some ⟨relation1.serData, relation1.hashId⟩ :=
  ⟨(C5_asdict_ids.1 sceneDoc 1 "relations" ⟨[relation1], [predRel]⟩
      (by decide) (by decide)).1,
   (C5_asdict_ids.1 sceneDoc 1 "relations" ⟨[relation1], [predRel]⟩
      (by decide) (by decide)).2 0 relation1 (by decide)⟩

/-- C8: `TaskModule.encode` raises the assertion error exactly on a
parallel-list length mismatch (input encodings, metadata, documents, and
targets when requested), and on matching lengths it returns one
`TaskEncoding` per input encoding. -/
theorem C8_encode_asserts {I M D T : Type}
    (encodeInput : List D → List I × List M × Option (List D))
    (encodeTarget : List D → List I → List M → List T)
    (documents : List D) (withTarget : Bool) :
    (¬ ((encodeInput documents).1.length = (encodeInput documents).2.1.length ∧
        (encodeInput documents).1.length
          = (TaskModule.effectiveDocs encodeInput documents).length ∧
        (withTarget = true →
          (encodeInput documents).1.length
            = (encodeTarget (TaskModule.effectiveDocs encodeInput documents)
                (encodeInput documents).1 (encodeInput documents).2.1).length)) →
      TaskModule.encode encodeInput encodeTarget documents withTarget
        = .error "AssertionError: lists must be of same length") ∧
    (((encodeInput documents).1.length = (encodeInput documents).2.1.length ∧
        (encodeInput documents).1.length
          = (TaskModule.effectiveDocs encodeInput documents).length ∧
        (withTarget = true →
          (encodeInput documents).1.length
            = (encodeTarget (TaskModule.effectiveDocs encodeInput documents)
                (encodeInput documents).1 (encodeInput documents).2.1).length)) →
      ∃ l, TaskModule.encode encodeInput encodeTarget documents withTarget = .ok l
        ∧ l.length = (encodeInput documents).1.length) := by
  cases withTarget with
  | false =>
    have henc : TaskModule.encode encodeInput encodeTarget documents false
        = (if (encodeInput documents).1.length = (encodeInput documents).2.1.length
              ∧ (encodeInput documents).1.length
                = (TaskModule.effectiveDocs encodeInput documents).length then
            .ok (((encodeInput documents).1.zip ((encodeInput documents).2.1.zip
                (TaskModule.effectiveDocs encodeInput documents))).map
              (fun x => ⟨x.1, x.2.2, none, x.2.1⟩))
          else .error "AssertionError: lists must be of same length") := rfl
    constructor
    · intro hmis
      have hcnot : ¬ ((encodeInput documents).1.length = (encodeInput documents).2.1.length
          ∧ (encodeInput documents).1.length
            = (TaskModule.effectiveDocs encodeInput documents).length) :=
        fun hc => hmis ⟨hc.1, hc.2, fun hff => nomatch hff⟩
      rw [henc, if_neg hcnot]
    · intro hok
      rw [henc, if_pos ⟨hok.1, hok.2.1⟩]
      refine ⟨_, rfl, ?_⟩
      rw [List.length_map, List.length_zip, List.length_zip, ← hok.1, ← hok.2.1]
      simp
  | true =>
    have henc : TaskModule.encode encodeInput encodeTarget documents true
        = (if (encodeInput documents).1.length = (encodeInput documents).2.1.length
              ∧ (encodeInput documents).1.length
                = (encodeTarget (TaskModule.effectiveDocs encodeInput documents)
                    (encodeInput documents).1 (encodeInput documents).2.1).length
              ∧ (encodeInput documents).1.length
                = (TaskModule.effectiveDocs encodeInput documents).length then
            .ok (((encodeInput documents).1.zip ((encodeInput documents).2.1.zip
                ((encodeTarget (TaskModule.effectiveDocs encodeInput documents)
                    (encodeInput documents).1 (encodeInput documents).2.1).zip
                  (TaskModule.effectiveDocs encodeInput documents)))).map
              (fun x => ⟨x.1, x.2.2.2, some x.2.2.1, x.2.1⟩))
          else .error "AssertionError: lists must be of same length") := rfl
    constructor
    · intro hmis
      have hcnot : ¬ ((encodeInput documents).1.length = (encodeInput documents).2.1.length
          ∧ (encodeInput documents).1.length
            = (encodeTarget (TaskModule.effectiveDocs encodeInput documents)
                (encodeInput documents).1 (encodeInput documents).2.1).length
          ∧ (encodeInput documents).1.length
            = (TaskModule.effectiveDocs encodeInput documents).length) :=
        fun hc => hmis ⟨hc.1, hc.2.2, fun _ => hc.2.1⟩
      rw [henc, if_neg hcnot]
    · intro hok
      rw [henc, if_pos ⟨hok.1, hok.2.2 rfl, hok.2.1⟩]
      refine ⟨_, rfl, ?_⟩
      rw [List.length_map, List.length_zip, List.length_zip, List.length_zip,
        ← hok.1, ← hok.2.1, ← hok.2.2 rfl]
      simp

/-- C8 witness: one input encoding against two metadata entries raises the
assertion; matching lengths produce one task encoding per input. -/
theorem C8_encode_asserts_witness :
    @TaskModule.encode Nat Nat Nat Nat (fun _ => ([1], [10, 20], none))
        (fun _ _ _ => []) [0, 5] false
      = .error "AssertionError: lists must be of same length" ∧
    (∃ l, @TaskModule.encode Nat Nat Nat Nat (fun _ => ([1, 2], [10, 20], none))
        (fun _ _ _ => []) [0, 5] false = .ok l ∧ l.length = 2) :=
  ⟨(C8_encode_asserts (fun _ => ([1], [10, 20], none)) (fun _ _ _ => []) [0, 5]
      false).1 (by decide),
   (C8_encode_asserts (fun _ => ([1, 2], [10, 20], none)) (fun _ _ _ => []) [0, 5]
      false).2 (by decide)⟩

/-- C6: on the batched output collated from two task encodings, the
text-classification `unbatch_output` builds ONE aggregate result dict
carrying both decoded labels and appends it exactly once — the returned
list has length 1, not 2 — while the token-classification
`unbatch_output` returns one output per collated encoding (length 2,
order preserved). The text variant therefore violates the claimed
`len(unbatch_output(...)) == N` contract for every batch with N different
from 1. -/
theorem C6_unbatch_counts :
    textClsUnbatchOutput (fun i => if i = 0 then "neg" else "pos") false
        [[1, 0], [0, 1]]
      = .ok [⟨["neg", "pos"], [1, 1]⟩] ∧
    Except.map List.length (textClsUnbatchOutput
        (fun i => if i = 0 then "neg" else "pos") false [[1, 0], [0, 1]])
      = .ok 1 ∧
    tokenClsUnbatchOutput (fun i => if i = 0 then "O" else "B-PER")
        [[[1, 0], [0, 1]], [[0, 1], [1, 0]]]
      = [⟨["O", "B-PER"], [[1, 0], [0, 1]]⟩, ⟨["B-PER", "O"], [[0, 1], [1, 0]]⟩] ∧
    (tokenClsUnbatchOutput (fun i => if i = 0 then "O" else "B-PER")
        [[[1, 0], [0, 1]], [[0, 1], [1, 0]]]).length = 2 := by
  refine ⟨by decide, by decide, by decide, by decide⟩

end PIE
